import Mathlib

/-!
Verification development for the `odoo_translator` repository.

The Python sources under `src/po_translator/` are shallowly embedded below:
strings are `List Char`, Python floats used for detection confidences are
modelled as exact fractions (only decimal literals, `max` and comparisons
occur),
and the external detection libraries (`langid`, `googletrans`, `langdetect`)
and the remote generative provider are modelled as oracle parameters.
Python string case operations are modelled on the ASCII and Latin-1 ranges
(the only ranges exercised by the glossary data); characters above U+00FF
are treated as uncased, and `ß` is kept fixed by the character-wise upper
map (the glossary contains neither).
-/

/-- Convert a string literal to the `List Char` representation used throughout. -/
def str (s : String) : List Char := s.data

abbrev Str := List Char

/-- Left curly brace character (written via its code point). -/
def lbr : Char := Char.ofNat 123

/-- Right curly brace character (written via its code point). -/
def rbr : Char := Char.ofNat 125

/-- Apostrophe character. -/
def apos : Char := Char.ofNat 39

/-- Python `\s` whitespace on the ASCII range: space, tab, newline, carriage
return, vertical tab, form feed. -/
def isWsC (c : Char) : Bool :=
  c == ' ' || c == Char.ofNat 9 || c == Char.ofNat 10 || c == Char.ofNat 13 ||
    c == Char.ofNat 11 || c == Char.ofNat 12

/-- Uppercase letter in the ASCII/Latin-1 model (A–Z, À–Þ except ×). -/
def isUpC (c : Char) : Bool :=
  ('A' ≤ c && c ≤ 'Z') || (0xC0 ≤ c.toNat && c.toNat ≤ 0xDE && c.toNat != 0xD7)

/-- Lowercase letter in the ASCII/Latin-1 model (a–z, ß–ÿ except ÷). -/
def isLoC (c : Char) : Bool :=
  ('a' ≤ c && c ≤ 'z') || (0xDF ≤ c.toNat && c.toNat ≤ 0xFF && c.toNat != 0xF7)

/-- Cased character (has an upper or lower form) in the Latin-1 model. -/
def isCasedC (c : Char) : Bool := isUpC c || isLoC c

/-- Character-wise lower map (Python `str.lower` on the modelled range). -/
def loC (c : Char) : Char := if isUpC c then Char.ofNat (c.toNat + 0x20) else c

/-- Character-wise upper map (Python `str.upper` on the modelled range;
`ß` is kept fixed and `ÿ` maps to Ÿ, U+0178). -/
def upC (c : Char) : Char :=
  if c.toNat == 0xDF then c
  else if c.toNat == 0xFF then Char.ofNat 0x178
  else if isLoC c then Char.ofNat (c.toNat - 0x20)
  else c

/-- Title-case a single character; identical to `upC` on the modelled range. -/
def titleC (c : Char) : Char := upC c

/-- Python `str.lower`, character-wise. -/
def pyLower (s : Str) : Str := s.map loC

/-- Python `str.upper`, character-wise. -/
def pyUpper (s : Str) : Str := s.map upC

/-- Python `str.isupper`: at least one cased character and no lowercase one. -/
def pyIsUpper (s : Str) : Bool := s.any isCasedC && s.all (fun c => !isLoC c)

/-- Python `str.islower`: at least one cased character and no uppercase one. -/
def pyIsLower (s : Str) : Bool := s.any isCasedC && s.all (fun c => !isUpC c)

/-- Worker for `pyIsTitle`; arguments: seen-a-cased-char flag, previous
character-was-cased flag, rest of the string. -/
def pyIsTitleGo : Bool → Bool → Str → Bool
  | seen, _, [] => seen
  | seen, prev, c :: r =>
    if isUpC c then (if prev then false else pyIsTitleGo true true r)
    else if isLoC c then (if prev then pyIsTitleGo true true r else false)
    else pyIsTitleGo seen false r

/-- Python `str.istitle`: uppercase characters only at the start of each run
of cased characters, and at least one cased character. -/
def pyIsTitle (s : Str) : Bool := pyIsTitleGo false false s

/-- Worker for `pyTitle`; the flag records whether the previous character was cased. -/
def pyTitleGo : Bool → Str → Str
  | _, [] => []
  | prev, c :: r =>
    if isCasedC c then (if prev then loC c else titleC c) :: pyTitleGo true r
    else c :: pyTitleGo false r

/-- Python `str.title`: first character of each cased run title-cased, the
rest lowered. -/
def pyTitle (s : Str) : Str := pyTitleGo false s

/-- Python `str.strip` (ASCII whitespace). -/
def pyStrip (s : Str) : Str := ((s.dropWhile isWsC).reverse.dropWhile isWsC).reverse

/-- Python substring test `pat in s`. -/
def hasSub (pat : Str) : Str → Bool
  | [] => pat.isEmpty
  | c :: r => pat.isPrefixOf (c :: r) || hasSub pat r

-- ==========================================================
-- OfflineTranslatorEngine (src/po_translator/translator.py)
-- ==========================================================

/-- `OfflineTranslatorEngine._apply_case`: re-apply the matched token's
capitalization pattern to the replacement. -/
def apply_case : Str → Str → Str
  | [], t => t
  | _ :: _, [] => []
  | sc :: ss, tc :: ts =>
    if pyIsUpper (sc :: ss) then pyUpper (tc :: ts)
    else if pyIsLower (sc :: ss) then pyLower (tc :: ts)
    else if pyIsTitle (sc :: ss) then pyTitle (tc :: ts)
    else if isUpC sc then upC tc :: ts
    else tc :: ts

/-- First alternative of `PLACEHOLDER_PATTERN`: a named conversion
`%(` nonempty `)`-free body `)s`. -/
def phAlt1 : Str → Option (Str × Str)
  | '%' :: '(' :: r =>
    let w := r.takeWhile (fun c => c ≠ ')')
    match r.dropWhile (fun c => c ≠ ')') with
    | ')' :: 's' :: r2 => if w.isEmpty then none else some ('%' :: '(' :: (w ++ [')', 's']), r2)
    | _ => none
  | _ => none

/-- Second alternative of `PLACEHOLDER_PATTERN`: the literal `%s`. -/
def phAlt2 : Str → Option (Str × Str)
  | '%' :: 's' :: r => some (['%', 's'], r)
  | _ => none

/-- Third alternative of `PLACEHOLDER_PATTERN`: a brace group with a
nonempty body free of the closing brace. -/
def phAlt3 (s : Str) : Option (Str × Str) :=
  match s with
  | c :: r =>
    if c = lbr then
      let w := r.takeWhile (fun c => c ≠ rbr)
      match r.dropWhile (fun c => c ≠ rbr) with
      | c2 :: r2 => if c2 = rbr && !w.isEmpty then some (lbr :: (w ++ [rbr]), r2) else none
      | [] => none
    else none
  | [] => none

/-- Fourth alternative of `PLACEHOLDER_PATTERN`: a dollar-brace group. -/
def phAlt4 (s : Str) : Option (Str × Str) :=
  match s with
  | '$' :: c :: r =>
    if c = lbr then
      let w := r.takeWhile (fun c => c ≠ rbr)
      match r.dropWhile (fun c => c ≠ rbr) with
      | c2 :: r2 => if c2 = rbr && !w.isEmpty then some ('$' :: lbr :: (w ++ [rbr]), r2) else none
      | [] => none
    else none
  | _ => none

/-- Fifth alternative of `PLACEHOLDER_PATTERN`: a double-brace group
(kept for faithfulness to the pattern's alternation order; the third
alternative always fires first on any string this one would match). -/
def phAlt5 (s : Str) : Option (Str × Str) :=
  match s with
  | c1 :: c2 :: r =>
    if c1 = lbr && c2 = lbr then
      let w := r.takeWhile (fun c => c ≠ rbr)
      match r.dropWhile (fun c => c ≠ rbr) with
      | c3 :: c4 :: r2 =>
        if c3 = rbr && c4 = rbr && !w.isEmpty then
          some (lbr :: lbr :: (w ++ [rbr, rbr]), r2)
        else none
      | _ => none
    else none
  | _ => none

/-- Try the five alternatives of `PLACEHOLDER_PATTERN` at the current
position, in the pattern's order, returning the matched token and the rest. -/
def phMatchAt (s : Str) : Option (Str × Str) :=
  phAlt1 s <|> phAlt2 s <|> phAlt3 s <|> phAlt4 s <|> phAlt5 s

/-- Decimal digit character for a value below ten. -/
def decDig (n : Nat) : Char := Char.ofNat (48 + n)

/-- Worker producing the decimal digits of a natural number. -/
def natDecGo : Nat → Nat → Str → Str
  | 0, _, acc => acc
  | f + 1, n, acc =>
    let d := decDig (n % 10)
    if n < 10 then d :: acc else natDecGo f (n / 10) (d :: acc)

/-- Decimal representation of a natural number (Python `str(n)` for `n : Nat`). -/
def natDec (n : Nat) : Str := natDecGo (n + 1) n []

/-- The opaque marker `__PH_{k}__` used by `_stash_placeholder`. -/
def marker (k : Nat) : Str := str "__PH_" ++ natDec k ++ str "__"

/-- Worker for the placeholder stash pass (`PLACEHOLDER_PATTERN.sub` with
`_stash_placeholder`): returns the working text with markers substituted and
the list of stashed original tokens in match order.  The fuel argument is
initialized to the string length; each step consumes at least one character. -/
def phScanGo : Nat → Str → Nat → Str × List Str
  | 0, s, _ => (s, [])
  | f + 1, s, n =>
    match phMatchAt s with
    | some (tok, rest) =>
      let p := phScanGo f rest (n + 1)
      (marker n ++ p.1, tok :: p.2)
    | none =>
      match s with
      | [] => ([], [])
      | c :: r =>
        let p := phScanGo f r n
        (c :: p.1, p.2)

/-- Stash the placeholder tokens of a string. -/
def phStash (s : Str) : Str × List Str := phScanGo s.length s 0

/-- The list of placeholder tokens of a string, in scan order (the matches
of `PLACEHOLDER_PATTERN`). -/
def phTokens (s : Str) : List Str := (phStash s).2

-- Sanity checks of the scanners on concrete strings.
example : phTokens (str "a %(count)s b %s") = [str "%(count)s", str "%s"] := by decide
example : phStash (str "x %s y") = (str "x __PH_0__ y", [str "%s"]) := by decide
example : phTokens (str "$\x7bref\x7d and \x7bamount\x7d") =
    [str "$\x7bref\x7d", str "\x7bamount\x7d"] := by decide
example : phTokens (str "\x7b\x7bname\x7d\x7d") = [str "\x7b\x7bname\x7d"] := by decide

/-- The `("en", "fr")` phrase table of `OFFLINE_DICTIONARY`. -/
def enFrPhrases : List (String × String) :=
  [("purchase order", "bon de commande"),
   ("sales order", "commande client"),
   ("delivery order", "bon de livraison"),
   ("quotation", "devis"),
   ("confirm the order", "confirmer la commande"),
   ("confirm order", "confirmer la commande"),
   ("create invoice", "créer la facture"),
   ("customer invoice", "facture client"),
   ("vendor bill", "facture fournisseur"),
   ("total amount", "montant total"),
   ("payment terms", "conditions de paiement")]

/-- The `("en", "fr")` word table of `OFFLINE_DICTIONARY`. -/
def enFrWords : List (String × String) :=
  [("confirm", "confirmer"), ("confirming", "confirmation"),
   ("confirmations", "confirmations"), ("order", "commande"),
   ("orders", "commandes"), ("customer", "client"), ("customers", "clients"),
   ("vendor", "fournisseur"), ("vendors", "fournisseurs"),
   ("invoice", "facture"), ("invoices", "factures"), ("quotation", "devis"),
   ("quotations", "devis"), ("delivery", "livraison"), ("product", "article"),
   ("products", "articles"), ("amount", "montant"), ("total", "total"),
   ("create", "créer"), ("new", "nouveau"), ("draft", "brouillon"),
   ("validate", "valider"), ("warehouse", "entrepôt"), ("stock", "stock"),
   ("partner", "partenaire"), ("payment", "paiement"),
   ("payments", "paiements"), ("due", "dû"), ("deadline", "échéance"),
   ("comment", "commentaire"), ("comments", "commentaires"),
   ("please", "veuillez"), ("save", "enregistrer"), ("cancel", "annuler"),
   ("apply", "appliquer"), ("amounts", "montants"), ("lines", "lignes")]

/-- The `("fr", "en")` phrase table of `OFFLINE_DICTIONARY`. -/
def frEnPhrases : List (String × String) :=
  [("bon de commande", "purchase order"),
   ("bon de livraison", "delivery order"),
   ("facture client", "customer invoice"),
   ("facture fournisseur", "vendor bill"),
   ("confirmer la commande", "confirm the order"),
   ("montant total", "total amount")]

/-- The `("fr", "en")` word table of `OFFLINE_DICTIONARY`. -/
def frEnWords : List (String × String) :=
  [("commande", "order"), ("commandes", "orders"), ("client", "customer"),
   ("clients", "customers"), ("fournisseur", "vendor"),
   ("fournisseurs", "vendors"), ("facture", "invoice"),
   ("factures", "invoices"), ("devis", "quotation"),
   ("livraison", "delivery"), ("article", "product"),
   ("articles", "products"), ("montant", "amount"), ("montants", "amounts"),
   ("paiement", "payment"), ("paiements", "payments"),
   ("valider", "validate"), ("créer", "create"), ("annuler", "cancel"),
   ("enregistrer", "save"), ("commentaire", "comment"),
   ("commentaires", "comments"), ("entrepôt", "warehouse")]

/-- The `("en", "es")` phrase table of `OFFLINE_DICTIONARY`. -/
def enEsPhrases : List (String × String) :=
  [("sales order", "orden de venta"),
   ("purchase order", "orden de compra"),
   ("confirm the order", "confirmar el pedido")]

/-- The `("en", "es")` word table of `OFFLINE_DICTIONARY`. -/
def enEsWords : List (String × String) :=
  [("order", "pedido"), ("orders", "pedidos"), ("invoice", "factura"),
   ("invoices", "facturas"), ("customer", "cliente"),
   ("customers", "clientes"), ("total", "total"), ("amount", "importe"),
   ("confirm", "confirmar"), ("create", "crear")]

/-- The `("es", "en")` phrase table of `OFFLINE_DICTIONARY`. -/
def esEnPhrases : List (String × String) :=
  [("orden de venta", "sales order"), ("orden de compra", "purchase order")]

/-- The `("es", "en")` word table of `OFFLINE_DICTIONARY`. -/
def esEnWords : List (String × String) :=
  [("pedido", "order"), ("pedidos", "orders"), ("factura", "invoice"),
   ("facturas", "invoices"), ("cliente", "customer"),
   ("clientes", "customers"), ("confirmar", "confirm"), ("crear", "create")]

/-- The supported language pairs, i.e. the keys of `OFFLINE_DICTIONARY`. -/
def offlinePairs : List (Str × Str) :=
  [(str "en", str "fr"), (str "fr", str "en"), (str "en", str "es"), (str "es", str "en")]

/-- `OfflineTranslatorEngine.supports_pair`. -/
def supports_pair (source target : Str) : Bool :=
  offlinePairs.contains (source, target)

/-- Raw phrase table of a language pair (empty for unsupported pairs). -/
def dictPhrases (source target : Str) : List (String × String) :=
  if source = str "en" && target = str "fr" then enFrPhrases
  else if source = str "fr" && target = str "en" then frEnPhrases
  else if source = str "en" && target = str "es" then enEsPhrases
  else if source = str "es" && target = str "en" then esEnPhrases
  else []

/-- Raw word table of a language pair (empty for unsupported pairs). -/
def dictWords (source target : Str) : List (String × String) :=
  if source = str "en" && target = str "fr" then enFrWords
  else if source = str "fr" && target = str "en" then frEnWords
  else if source = str "en" && target = str "es" then enEsWords
  else if source = str "es" && target = str "en" then esEnWords
  else []

/-- Stable insertion keeping longer first keys first (helper realizing
Python's stable `sorted(key=len(item[0]), reverse=True)`). -/
def insDesc (x : String × String) : List (String × String) → List (String × String)
  | [] => [x]
  | y :: ys => if x.1.length ≤ y.1.length then y :: insDesc x ys else x :: y :: ys

/-- Stable sort by first-component length, descending, as in `_get_rules`. -/
def sortDesc (l : List (String × String)) : List (String × String) :=
  l.foldl (fun acc x => insDesc x acc) []

/-- The phrase rules of `_get_rules`: sorted by phrase length, longest first. -/
def phraseRules (source target : Str) : List (Str × Str) :=
  (sortDesc (dictPhrases source target)).map (fun p => (p.1.data, p.2.data))

/-- The word rules of `_get_rules`. -/
def wordRules (source target : Str) : List (Str × Str) :=
  (dictWords source target).map (fun p => (p.1.data, p.2.data))

/-- Case-insensitive character comparison (simple folding on the Latin-1 model),
realizing `re.IGNORECASE` on the glossary's literal patterns. -/
def ciEq (a b : Char) : Bool := loC a == loC b

/-- Case-insensitive "pattern is a prefix of the string" test. -/
def ciIsPfx : Str → Str → Bool
  | [], _ => true
  | _ :: _, [] => false
  | p :: ps, c :: cs => ciEq p c && ciIsPfx ps cs

/-- One `pattern.sub(_phrase_repl, working)` pass: scan left to right, replace
each case-insensitive occurrence of the (nonempty) literal phrase by the
case-adjusted replacement, continuing after the match.  An empty pattern acts
as the identity (never produced by the glossary). -/
def ciRepAllGo : Nat → Str → Str → Str → Str
  | 0, _, _, s => s
  | f + 1, p, r, s =>
    match s with
    | [] => []
    | c :: cs =>
      if !p.isEmpty && ciIsPfx p s then
        apply_case (s.take p.length) r ++ ciRepAllGo f p r (s.drop p.length)
      else c :: ciRepAllGo f p r cs

/-- Case-insensitive replace-all with case transfer (see `ciRepAllGo`). -/
def ciRepAll (p r s : Str) : Str := ciRepAllGo s.length p r s

/-- `WORD_PATTERN` character class: ASCII letters, the full À–ÿ Latin-1 block,
and the apostrophe. -/
def isWordC (c : Char) : Bool :=
  ('A' ≤ c && c ≤ 'Z') || ('a' ≤ c && c ≤ 'z') ||
    (0xC0 ≤ c.toNat && c.toNat ≤ 0xFF) || c == apos

/-- First-match lookup in a word table (the tables have pairwise distinct
keys, so this coincides with Python's dict built from them). -/
def lookupW : List (Str × Str) → Str → Option Str
  | [], _ => none
  | (k, v) :: r, t => if k = t then some v else lookupW r t

/-- The `WORD_PATTERN.sub(_word_repl, working)` pass: each maximal run of
word characters is looked up (lowercased) in the word table; found tokens are
replaced with case transfer, others pass through. -/
def wordSubGo : Nat → List (Str × Str) → Str → Str
  | 0, _, s => s
  | f + 1, wm, s =>
    match s with
    | [] => []
    | c :: cs =>
      if isWordC c then
        let tok := s.takeWhile isWordC
        let out := match lookupW wm (pyLower tok) with
          | some tr => apply_case tok tr
          | none => tok
        out ++ wordSubGo f wm (s.dropWhile isWordC)
      else c :: wordSubGo f wm cs

/-- Word-level substitution pass (see `wordSubGo`). -/
def wordSub (wm : List (Str × Str)) (s : Str) : Str := wordSubGo s.length wm s

/-- Python `str.replace(pat, rep)` for a nonempty literal pattern: replace all
non-overlapping occurrences left to right (an empty pattern acts as the
identity; the markers it is used with are never empty). -/
def repAllGo : Nat → Str → Str → Str → Str
  | 0, _, _, s => s
  | f + 1, p, r, s =>
    match s with
    | [] => []
    | c :: cs =>
      if !p.isEmpty && p.isPrefixOf s then r ++ repAllGo f p r (s.drop p.length)
      else c :: repAllGo f p r cs

/-- Replace-all for a literal pattern (see `repAllGo`). -/
def repAll (p r s : Str) : Str := repAllGo s.length p r s

/-- The placeholder-restoration loop: `working.replace(token, original)` for
each stashed placeholder, in stash order, starting at marker index `i`. -/
def restoreGo : Nat → List Str → Str → Str
  | _, [], w => w
  | i, t :: ts, w => restoreGo (i + 1) ts (repAll (marker i) t w)

/-- The final whitespace pass: each maximal whitespace run is kept when it
contains a newline and replaced by a single space otherwise. -/
def collapseGo : Nat → Str → Str
  | 0, s => s
  | f + 1, s =>
    match s with
    | [] => []
    | c :: cs =>
      if isWsC c then
        let run := s.takeWhile isWsC
        (if run.contains (Char.ofNat 10) then run else [' ']) ++
          collapseGo f (s.dropWhile isWsC)
      else c :: collapseGo f cs

/-- Whitespace normalization (see `collapseGo`). -/
def collapseWs (s : Str) : Str := collapseGo s.length s

/-- `OfflineTranslatorEngine.translate`: stash placeholders, apply phrase
rules longest-first, apply the word table, restore placeholders, normalize
whitespace and strip.  Returns the text itself for empty or blank input, and
`none` for an unsupported pair. -/
def offline_translate (text : Str) (source target : Str) : Option Str :=
  if text.isEmpty || (pyStrip text).isEmpty then some text
  else if !supports_pair source target then none
  else
    let st := phStash text
    let w1 := (phraseRules source target).foldl (fun w pr => ciRepAll pr.1 pr.2 w) st.1
    let w2 := wordSub (wordRules source target) w1
    let w3 := restoreGo 0 st.2 w2
    some (pyStrip (collapseWs w3))

-- Sanity checks against the repository's own tests.
example : offline_translate (str "Confirm the order") (str "en") (str "fr") =
    some (str "Confirmer la commande") := by decide
example : offline_translate (str "Customer") (str "en") (str "fr") =
    some (str "Client") := by decide
example : offline_translate (str "Confirm the order") (str "en") (str "de") = none := by decide
example : offline_translate (str "Create %(count)s new invoice") (str "en") (str "fr") =
    some (str "Créer %(count)s nouveau facture") := by decide

-- ==========================================================
-- Language detection (src/po_translator/utils/language.py)
-- ==========================================================

/-- `FRENCH_INDICATORS` from `utils/language.py`. -/
def frenchInd : List String :=
  ["le", "la", "les", "un", "une", "des", "du", "de", "à", "au", "aux",
   "est", "sont", "être", "avoir", "faire", "pour", "dans", "sur", "avec",
   "commande", "facture", "livraison", "client", "fournisseur", "article",
   "paiement", "devis", "partenaire", "bon", "créer", "confirmer", "annuler",
   "veuillez", "montant", "total", "calculé", "automatiquement", "saisir",
   "commentaires", "nouvelle", "ici"]

/-- `ENGLISH_INDICATORS` from `utils/language.py`. -/
def englishInd : List String :=
  ["the", "a", "an", "is", "are", "be", "have", "do", "for", "in", "on", "with",
   "order", "invoice", "delivery", "customer", "supplier", "product", "payment",
   "quotation", "partner", "create", "confirm", "cancel", "please", "amount",
   "total", "calculated", "automatically", "enter", "comments", "new", "here"]

/-- Number of indicator words occurring as substrings of the (lowercased)
text, as in `sum(1 for word in SET if word in text_lower)`. -/
def indCount (inds : List String) (tl : Str) : Nat :=
  (inds.filter (fun w => hasSub w.data tl)).length

/-- Python truthiness of an optional language code (`None` and the empty
string are falsy). -/
def otruthy : Option Str → Bool
  | none => false
  | some s => !s.isEmpty

/-- `_normalize_lang_code`: take the part before the first dash, lowercase it
(the `zh` special case returns the same value it normalized to). -/
def normCode : Option Str → Option Str
  | none => none
  | some c =>
    if c.isEmpty then none
    else
      let primary := pyLower (c.takeWhile (fun x => x ≠ '-'))
      if primary = str "zh" then some (str "zh") else some primary

/-- Python `str.split()` (split on whitespace runs, dropping empties). -/
def pySplitGo : Nat → Str → List Str
  | 0, _ => []
  | f + 1, s =>
    match s.dropWhile isWsC with
    | [] => []
    | c :: r =>
      (c :: r).takeWhile (fun x => !isWsC x) ::
        pySplitGo f ((c :: r).dropWhile (fun x => !isWsC x))

/-- Python `str.split()` wrapper. -/
def pySplit (s : Str) : List Str := pySplitGo s.length s

/-- Exact nonnegative rational confidence values, as an unnormalized
numerator/denominator pair.  The Python float confidences only ever flow
through comparisons and `max`, which this representation models exactly
(and, unlike `ℚ`, it evaluates inside the kernel). -/
structure Conf where
  num : Nat
  den : Nat
deriving DecidableEq

/-- Confidence literal `n / d`. -/
def cf (n d : Nat) : Conf := ⟨n, d⟩

/-- Comparison `a ≤ b` of confidence values (cross multiplication). -/
def cle (a b : Conf) : Bool := a.num * b.den ≤ b.num * a.den

/-- Python `max(a, b)`: returns `a` when `a ≥ b`, else `b`. -/
def cmax (a b : Conf) : Conf := if cle b a then a else b

/-- Oracles standing for the external detection libraries: `classify` is
`langid`'s raw `classify`, `google` is the Google-backed detection (the
`none` case covers the disabled/unavailable/failed paths, the `some` case
carries the raw language and confidence), and `dlangs` is `langdetect`'s
`detect_langs` (empty on `LangDetectException`). -/
structure DetOracles where
  classify : Str → Str × Conf
  google : Str → Option (Option Str × Conf)
  dlangs : Str → List (Str × Conf)

/-- `_heuristic_detect`: indicator-count vote with fixed 0.95 confidence. -/
def heuristic_detect (text : Str) : Option Str × Conf :=
  let tl := pyLower text
  let fc := indCount frenchInd tl
  let ec := indCount englishInd tl
  if fc > 0 && fc > ec then (some (str "fr"), cf 95 100)
  else if ec > 0 && ec > fc then (some (str "en"), cf 95 100)
  else (none, cf 0 1)

/-- `_detect_with_langid`: classify, normalize, then apply the three
sequential reclassification rules (Romance-to-French on three or more French
indicators, Scandinavian-to-English on any English indicator, and the
`gl`/`ca` "commande" rule). -/
def detect_with_langid (o : DetOracles) (text : Str) : Option Str × Conf :=
  if text.isEmpty || (pyStrip text).isEmpty then (none, cf 0 1)
  else
    let lc := o.classify text
    let n0 := normCode (some lc.1)
    let tl := pyLower text
    let r1 :=
      if n0 = some (str "ca") || n0 = some (str "ro") || n0 = some (str "it") ||
          n0 = some (str "es") || n0 = some (str "pt") then
        (if 3 ≤ indCount frenchInd tl then (some (str "fr"), cmax lc.2 (cf 82 100))
         else (n0, lc.2))
      else (n0, lc.2)
    let r2 :=
      if r1.1 = some (str "da") || r1.1 = some (str "no") || r1.1 = some (str "sv") then
        (if 1 ≤ indCount englishInd tl then (some (str "en"), cmax r1.2 (cf 8 10))
         else r1)
      else r1
    if (r2.1 = some (str "gl") || r2.1 = some (str "ca")) && hasSub (str "commande") tl then
      (some (str "fr"), cmax r2.2 (cf 8 10))
    else r2

/-- `_detect_with_google`: blank text or a missing detection yields
`(none, 0)`; otherwise the raw language is normalized. -/
def detect_with_google (o : DetOracles) (text : Str) : Option Str × Conf :=
  if text.isEmpty || (pyStrip text).isEmpty then (none, cf 0 1)
  else
    match o.google text with
    | none => (none, cf 0 1)
    | some d => (normCode d.1, d.2)

/-- The `langdetect` candidate list used by the statistical fallback
reclassification toward French. -/
def fallbackFr : List Str := [str "af", str "nl", str "no", str "da", str "sv"]

/-- The Romance candidate list of the statistical fallback. -/
def fallbackRomance : List Str := [str "ca", str "ro", str "it", str "es", str "pt"]

/-- `detect_language_details`: the cascading detection pipeline — heuristic,
`langid`, Google, low-confidence heuristic, `langdetect` fallback for texts
of three or more words, then the remaining guesses. -/
def detect_language_details (o : DetOracles) (text : Str) (minConf : Conf) :
    Option Str × Conf :=
  if text.isEmpty || (pyStrip text).isEmpty then (none, cf 0 1)
  else
    let h := heuristic_detect text
    if otruthy h.1 && cle minConf h.2 then h
    else
      let li := detect_with_langid o text
      if otruthy li.1 && cle minConf li.2 then li
      else
        let g := detect_with_google o text
        if otruthy g.1 && cle minConf g.2 then g
        else if otruthy h.1 then h
        else
          let tail :=
            if otruthy li.1 then li
            else ((if otruthy g.1 then g.1 else h.1), cmax (cmax g.2 h.2) li.2)
          if 3 ≤ (pySplit text).length then
            match o.dlangs text with
            | [] => tail
            | d :: _ =>
              let detected := normCode (some d.1)
              if (fallbackFr.map some).contains detected then (some (str "fr"), d.2)
              else if (fallbackRomance.map some).contains detected &&
                  h.1 = some (str "fr") then (some (str "fr"), cmax d.2 h.2)
              else (detected, d.2)
          else tail

/-- `detect_language`: the convenience wrapper.  Both branches of its final
conditional return `lang` in the source, and the embedding keeps that shape. -/
def detect_language (o : DetOracles) (text : Str) (minConf : Conf) : Option Str :=
  let r := detect_language_details o text minConf
  if otruthy r.1 && cle minConf r.2 then r.1 else r.1

/-- `is_french_text`. -/
def is_french_text (o : DetOracles) (text : Str) : Bool :=
  if text.isEmpty || (pyStrip text).isEmpty then false
  else detect_language o text (cf 7 10) == some (str "fr")

/-- `is_english_text`. -/
def is_english_text (o : DetOracles) (text : Str) : Bool :=
  if text.isEmpty || (pyStrip text).isEmpty then false
  else detect_language o text (cf 7 10) == some (str "en")

/-- `sanitize_text` (the copy in `utils/language.py`; `utils/file_utils.py`,
from which `translator.py` imports it, is not under src/ — the repository's
test suite pins the same strip behavior). -/
def sanitize_text : Option Str → Str
  | none => []
  | some t => pyStrip t

-- ==========================================================
-- Translator orchestrator (src/po_translator/translator.py)
-- ==========================================================

/-- A PO entry as seen by the translator (`polib.POEntry`'s `msgid`/`msgstr`). -/
structure PoEntry where
  msgid : Str
  msgstr : Str
deriving DecidableEq

/-- The statistics counters of `Translator.stats` that the embedded methods
touch. -/
structure TrStats where
  totalRequests : Nat
  cacheHits : Nat
  apiCalls : Nat
  errors : Nat
  retries : Nat
  offlineRequests : Nat
deriving DecidableEq

/-- The mutable state of a `Translator` instance used by the embedded
methods: configured languages, offline toggle, whether a Gemini model is
configured, the JSON cache content, the one-time-warning pair set, and the
statistics. -/
structure TrState where
  sourceLang : Str
  targetLang : Str
  autoDetect : Bool
  offlineMode : Bool
  hasModel : Bool
  cache : List (Str × Str)
  warnedPairs : List (Str × Str)
  stats : TrStats
deriving DecidableEq

/-- Association-list update with dict semantics: replace in place when the
key exists, append otherwise. -/
def alSet {α : Type} (k : Str) (v : α) : List (Str × α) → List (Str × α)
  | [] => [(k, v)]
  | (k', v') :: r => if k' = k then (k, v) :: r else (k', v') :: alSet k v r

/-- Association-list lookup. -/
def alGet {α : Type} (k : Str) : List (Str × α) → Option α
  | [] => none
  | (k', v') :: r => if k' = k then some v' else alGet k r

/-- Association-list deletion of the (first) binding of a key. -/
def alDel {α : Type} (k : Str) : List (Str × α) → List (Str × α)
  | [] => []
  | (k', v') :: r => if k' = k then r else (k', v') :: alDel k r

/-- `TranslationCache` keys: `f"{text}|{context}"`. -/
def cacheKey (text ctx : Str) : Str := text ++ '|' :: ctx

/-- The provider oracle for the online path: the generated response text for
a submitted source text, or `none` when the call raises. -/
def GenOracle : Type := Str → Option Str

/-- The variable pattern of `_validate_translation` (it has no double-brace
alternative): its match attempt at one position. -/
def valMatchAt (s : Str) : Option (Str × Str) :=
  phAlt1 s <|> phAlt2 s <|> phAlt3 s <|> phAlt4 s

/-- Scan for all matches of the validation variable pattern. -/
def valScanGo : Nat → Str → List Str
  | 0, _ => []
  | f + 1, s =>
    match valMatchAt s with
    | some (tok, rest) => tok :: valScanGo f rest
    | none =>
      match s with
      | [] => []
      | _ :: r => valScanGo f r

/-- The variables found by `_validate_translation`'s `re.findall`. -/
def valVars (s : Str) : List Str := valScanGo s.length s

/-- Equality of the two variable lists viewed as sets. -/
def setEqB (a b : List Str) : Bool :=
  a.all (fun x => b.contains x) && b.all (fun x => a.contains x)

/-- `Translator._validate_translation`: nonempty after stripping, and the
variable sets of source and translation coincide. -/
def validate_translation (src trans : Str) : Bool :=
  !(pyStrip trans).isEmpty && setEqB (valVars src) (valVars trans)

/-- Strip the quote characters of `strip('"\'')` from both ends. -/
def stripQuotes (s : Str) : Str :=
  let q := fun c => c == '"' || c == apos
  ((s.dropWhile q).reverse.dropWhile q).reverse

/-- The online retry loop of `Translator.translate` (attempts
`range(max_retries + 1)`): each attempt submits to the provider, post-processes
the response and validates it; a raising call or an invalid translation is
retried until the attempts run out, after which the original text is returned. -/
def onlineLoop (gen : GenOracle) (text key : Str) (st : TrState) :
    Nat → Nat → Str × TrState
  | 0, _ => (text, st)
  | attemptsLeft + 1, attempt =>
    let st1 := { st with stats := { st.stats with apiCalls := st.stats.apiCalls + 1 } }
    match gen text with
    | none =>
      let st2 := { st1 with stats := { st1.stats with errors := st1.stats.errors + 1 } }
      if attemptsLeft = 0 then (text, st2)
      else onlineLoop gen text key st2 attemptsLeft (attempt + 1)
    | some resp =>
      let t1 := stripQuotes (pyStrip resp)
      let t2 := if t1.contains (Char.ofNat 10)
        then t1.takeWhile (fun c => c ≠ Char.ofNat 10) else t1
      if validate_translation text t2 then
        (t2, { st1 with cache := alSet (cacheKey text key) t2 st1.cache })
      else if attemptsLeft = 0 then (text, st1)
      else
        let st2 := { st1 with stats := { st1.stats with retries := st1.stats.retries + 1 } }
        onlineLoop gen text key st2 attemptsLeft (attempt + 1)

/-- `Translator.translate`: sanitize, resolve the direction, consult the
cache, then the offline engine or the online retry loop. -/
def translator_translate (gen : GenOracle) (st : TrState)
    (text : Str) (fromLang toLang : Option Str) (context : Option Str)
    (maxRetries : Nat) : Str × TrState :=
  if text.isEmpty then (text, st)
  else
    let text := sanitize_text (some text)
    let fromL := match fromLang with
      | some f => if f.isEmpty then st.sourceLang else f
      | none => st.sourceLang
    let toL := match toLang with
      | some t => if t.isEmpty then st.targetLang else t
      | none => st.targetLang
    let st := { st with stats :=
      { st.stats with totalRequests := st.stats.totalRequests + 1 } }
    let ctx := match context with
      | some c => if c.isEmpty then [] else c
      | none => []
    let key := fromL ++ str "→" ++ toL ++ '|' :: ctx
    match alGet (cacheKey text key) st.cache with
    | some cached =>
      if !cached.isEmpty then
        (cached, { st with stats := { st.stats with cacheHits := st.stats.cacheHits + 1 } })
      else translatorBody gen st text fromL toL key maxRetries
    | none => translatorBody gen st text fromL toL key maxRetries
where
  /-- The part of `Translator.translate` after a cache miss. -/
  translatorBody (gen : GenOracle) (st : TrState)
      (text fromL toL key : Str) (maxRetries : Nat) : Str × TrState :=
    if st.offlineMode then
      let r := offline_translate text fromL toL
      let st1 := match r with
        | none =>
          if st.warnedPairs.contains (fromL, toL) then st
          else { st with warnedPairs := st.warnedPairs ++ [(fromL, toL)] }
        | some _ => st
      let translation := match r with
        | none => text
        | some t => if t.isEmpty then text else t
      let st2 := { st1 with
        cache := alSet (cacheKey text key) translation st1.cache,
        stats := { st1.stats with offlineRequests := st1.stats.offlineRequests + 1 } }
      (translation, st2)
    else if !st.hasModel then (text, st)
    else onlineLoop gen text key st (maxRetries + 1) 0

/-- `Translator.auto_translate_entry`: the per-entry decision logic — skip on
empty source, on an already-translated entry without `force`, on
already-target-language text, and on detected-equals-target; otherwise
translate (possibly from the detected language) and record a changed
translation. -/
def auto_translate_entry (o : DetOracles) (gen : GenOracle) (st : TrState)
    (entry : PoEntry) (module : Option Str) (force : Bool) :
    Bool × PoEntry × TrState :=
  if entry.msgid.isEmpty then (false, entry, st)
  else
    let msgid := pyStrip entry.msgid
    if msgid.isEmpty then (false, entry, st)
    else if !entry.msgstr.isEmpty && entry.msgid ≠ entry.msgstr && !force then
      (false, entry, st)
    else if !force && is_french_text o msgid && st.targetLang = str "fr" then
      (false, entry, st)
    else
      let detected := detect_language o msgid (cf 7 10)
      let proceed : Bool × Str :=
        if st.autoDetect && otruthy detected then
          match detected with
          | some d =>
            if d = st.targetLang then (if force then (true, st.sourceLang) else (false, st.sourceLang))
            else if d ≠ st.sourceLang then (true, d)
            else (true, st.sourceLang)
          | none => (true, st.sourceLang)
        else (true, st.sourceLang)
      if !proceed.1 then (false, entry, st)
      else
        let context := match module with
          | some m => if m.isEmpty then str "Odoo ERP" else str "Odoo module: " ++ m
          | none => str "Odoo ERP"
        let r := translator_translate gen st msgid (some proceed.2)
          (some st.targetLang) (some context) 1
        if !r.1.isEmpty && r.1 ≠ msgid then
          (true, { entry with msgstr := r.1 }, r.2)
        else (false, entry, r.2)

/-- The per-batch counters returned by `Translator.batch_translate`. -/
structure BatchStats where
  total : Nat
  translated : Nat
  skipped : Nat
  failed : Nat
deriving DecidableEq

/-- One per-entry step of a batch, abstracting `auto_translate_entry`
together with Python's possibility that it raises: `Except.error` stands for
a raised exception (caught by the loop), `Except.ok` for a normal return. -/
def BatchStep : Type := PoEntry → Except Unit (Bool × PoEntry)

/-- The loop body of `Translator.batch_translate` (no progress callback):
each entry increments exactly one of the three outcome counters, exceptions
being caught and counted as failed. -/
def batch_translate_go (act : BatchStep) : List PoEntry → BatchStats → BatchStats
  | [], s => s
  | e :: es, s =>
    let s' := match act e with
      | .ok (true, _) => { s with translated := s.translated + 1 }
      | .ok (false, _) => { s with skipped := s.skipped + 1 }
      | .error _ => { s with failed := s.failed + 1 }
    batch_translate_go act es s'

/-- `Translator.batch_translate` with no progress callback: the stats record
starts at `total = len(entries)` and zero outcomes. -/
def batch_translate (act : BatchStep) (entries : List PoEntry) : BatchStats :=
  batch_translate_go act entries ⟨entries.length, 0, 0, 0⟩

-- ==========================================================
-- ModuleIndexer and POMerger (src/po_translator/core/)
-- ==========================================================

/-- Path separator characters of the module-name pattern (`/` and `\`). -/
def sepC (c : Char) : Bool := c == '/' || c == Char.ofNat 92

/-- One match attempt of the `extract_module_name` pattern
`(?:addons|modules)[/\]([^/\]+)[/\]i18n` at the current position, trying the
`addons` alternative first. -/
def tryModMatch (s : Str) : Option Str :=
  let go := fun (kw : Str) =>
    if kw.isPrefixOf s then
      match s.drop kw.length with
      | c :: r2 =>
        if sepC c then
          let name := r2.takeWhile (fun x => !sepC x)
          match r2.dropWhile (fun x => !sepC x) with
          | c2 :: r3 =>
            if sepC c2 && !name.isEmpty && (str "i18n").isPrefixOf r3 then some name
            else none
          | [] => none
        else none
      | [] => none
    else none
  go (str "addons") <|> go (str "modules")

/-- Leftmost-match search loop for `extract_module_name`. -/
def extractModGo : Nat → Str → Option Str
  | 0, _ => none
  | f + 1, s =>
    match tryModMatch s with
    | some n => some n
    | none =>
      match s with
      | [] => none
      | _ :: r => extractModGo f r

/-- `extract_module_name` (the copy in `utils/language.py`;
`utils/file_utils.py`, from which `core/indexer.py` imports it, is not under
src/ — the repository's test suite pins the same path convention). -/
def extract_module_name (fp : Str) : Str :=
  if fp.isEmpty then str "unknown"
  else ((extractModGo fp.length fp).getD (str "unknown"))

example : extract_module_name (str "/opt/odoo/addons/sale/i18n/fr.po") = str "sale" := by decide
example : extract_module_name (str "C:\\odoo\\modules\\stock\\i18n\\en.po") = str "stock" := by
  decide
example : extract_module_name (str "./random/path.po") = str "unknown" := by decide

/-- The state of a `ModuleIndexer`: the entry-to-module map and the
module-to-entries map. -/
structure IdxState where
  entryToModule : List (Str × Str)
  moduleToEntries : List (Str × List Str)
deriving DecidableEq

/-- `ModuleIndexer.index_entry`: record the module derived from the file
path as the entry's module (overwriting any previous association) and append
the entry to that module's list when not already present. -/
def index_entry (st : IdxState) (entryId filepath : Str) : IdxState :=
  let m := extract_module_name filepath
  let l := (alGet m st.moduleToEntries).getD []
  let l' := if l.contains entryId then l else l ++ [entryId]
  { entryToModule := alSet entryId m st.entryToModule,
    moduleToEntries := alSet m l' st.moduleToEntries }

/-- `ModuleIndexer.get_module`. -/
def get_module (st : IdxState) (entryId : Str) : Str :=
  (alGet entryId st.entryToModule).getD (str "unknown")

/-- A catalog entry as loaded by `polib` for the merge pass. -/
structure CatEntry where
  msgid : Str
  msgstr : Str
  obsolete : Bool
deriving DecidableEq

/-- Modelled from the spec: the whitespace normalization of `POCleaner`
(`core/cleaner.py` is not under src/) — "normalizes whitespace" is modelled
as collapsing whitespace runs and trimming, reusing the engine's collapse. -/
def wsNormSpec (s : Str) : Str := pyStrip (collapseWs s)

/-- Modelled from the spec: `POCleaner.clean_entries` (`core/cleaner.py` is
not under src/) — "Cleaning pass runs before dedup: normalizes whitespace,
drops entries with empty source text." -/
def clean_entries (es : List CatEntry) : List CatEntry :=
  (es.map (fun e => { e with msgid := wsNormSpec e.msgid, msgstr := wsNormSpec e.msgstr })).filter
    (fun e => !e.msgid.isEmpty)

/-- Modelled from the spec: `POCleaner.merge_entries` (`core/cleaner.py` is
not under src/) — "a non-empty translated_text wins over an empty one; if
both are non-empty and differ, the first-seen entry's translation is
retained". -/
def merge_entries (first second : CatEntry) : CatEntry :=
  if !first.msgstr.isEmpty then first else { first with msgstr := second.msgstr }

/-- The state of a `POMerger`: the merged-entry dict and the indexer. -/
structure MergerState where
  mergedEntries : List (Str × CatEntry)
  idx : IdxState
deriving DecidableEq

/-- The dedup fold of `merge_files`: insert each cleaned entry, combining
with `merge_entries` when the source text is already present. -/
def mergeFold (es : List CatEntry) (m : List (Str × CatEntry)) : List (Str × CatEntry) :=
  es.foldl (fun acc e =>
    match alGet e.msgid acc with
    | some old => alSet e.msgid (merge_entries old e) acc
    | none => alSet e.msgid e acc) m

/-- The collection pass of `merge_files`: skip unparsed files, drop obsolete
entries, index every collected entry against its file's module. -/
def collectFiles (files : List (Str × Option (List CatEntry))) :
    IdxState × List CatEntry :=
  files.foldl (fun (acc : IdxState × List CatEntry) f =>
    match f.2 with
    | none => acc
    | some es => es.foldl (fun acc2 e =>
        if e.obsolete then acc2
        else (index_entry acc2.1 e.msgid f.1, acc2.2 ++ [e])) acc)
    (⟨[], []⟩, [])

/-- `POMerger.merge_files`: loaded files are given as
`(filepath, parse result)` pairs, `none` standing for a file `polib` failed
to parse (skipped).  Non-obsolete entries are indexed and collected, cleaned,
then deduplicated. -/
def merge_files (files : List (Str × Option (List CatEntry))) : MergerState :=
  let step1 := collectFiles files
  ⟨mergeFold (clean_entries step1.2) [], step1.1⟩

/-- `POMerger.update_entry`: rewrite the translation and/or rename the key;
a rename stores the (mutated) entry under the new key, deletes the old
binding and re-indexes the new key under the old module's conventional path. -/
def update_entry (st : MergerState) (msgid : Str) (newMsgid newMsgstr : Option Str) :
    Bool × MergerState :=
  match alGet msgid st.mergedEntries with
  | none => (false, st)
  | some entry =>
    let entry1 := match newMsgstr with
      | some s => { entry with msgstr := s }
      | none => entry
    match newMsgid with
    | some nid =>
      if nid ≠ msgid then
        let entry2 := { entry1 with msgid := nid }
        let m1 := alDel msgid (alSet nid entry2 st.mergedEntries)
        let oldModule := get_module st.idx msgid
        let idx' := index_entry st.idx nid
          (str "addons/" ++ oldModule ++ str "/i18n/fr.po")
        (true, ⟨m1, idx'⟩)
      else (true, ⟨alSet msgid entry1 st.mergedEntries, st.idx⟩)
    | none => (true, ⟨alSet msgid entry1 st.mergedEntries, st.idx⟩)

-- ==========================================================
-- Generic association-list lemmas
-- ==========================================================

theorem alGet_alSet_self {α : Type} (k : Str) (v : α) (m : List (Str × α)) :
    alGet k (alSet k v m) = some v := by
  induction m with
  | nil => simp [alSet, alGet]
  | cons p r ih =>
    obtain ⟨a, b⟩ := p
    by_cases h : a = k
    · simp [alSet, alGet, h]
    · simp [alSet, alGet, h, ih]

theorem alGet_alSet_ne {α : Type} {k k' : Str} (v : α) (m : List (Str × α))
    (h : k' ≠ k) : alGet k (alSet k' v m) = alGet k m := by
  induction m with
  | nil => simp [alSet, alGet, h]
  | cons p r ih =>
    obtain ⟨a, b⟩ := p
    by_cases h2 : a = k'
    · subst h2
      have h3 : ¬ (a = k) := fun hc => h (hc ▸ rfl)
      simp [alSet, alGet, h3]
    · by_cases h3 : a = k
      · subst h3
        simp [alSet, alGet, h2, Ne.symm h]
      · simp [alSet, alGet, h2, h3, ih]

theorem alGet_alDel_ne {α : Type} {k k' : Str} (m : List (Str × α))
    (h : k' ≠ k) : alGet k (alDel k' m) = alGet k m := by
  induction m with
  | nil => simp [alDel, alGet]
  | cons p r ih =>
    obtain ⟨a, b⟩ := p
    by_cases h2 : a = k'
    · subst h2
      have h3 : ¬ (a = k) := fun hc => h (hc ▸ rfl)
      simp [alDel, alGet, h3]
    · by_cases h3 : a = k
      · subst h3
        simp [alDel, alGet, h2, Ne.symm h]
      · simp [alDel, alGet, h2, h3, ih]

/-- Keys of an association list. -/
def alKeys {α : Type} (m : List (Str × α)) : List Str := m.map Prod.fst

theorem alGet_eq_none_of_not_mem {α : Type} {k : Str} {m : List (Str × α)}
    (h : k ∉ alKeys m) : alGet k m = none := by
  induction m with
  | nil => simp [alGet]
  | cons p r ih =>
    obtain ⟨a, b⟩ := p
    simp only [alKeys, List.map_cons, List.mem_cons] at h
    push_neg at h
    have h2 : ¬ (a = k) := fun hc => h.1 hc.symm
    simp [alGet, h2]
    exact ih h.2

theorem alGet_alDel_self {α : Type} {k : Str} {m : List (Str × α)}
    (h : (alKeys m).Nodup) : alGet k (alDel k m) = none := by
  induction m with
  | nil => simp [alDel, alGet]
  | cons p r ih =>
    obtain ⟨a, b⟩ := p
    simp only [alKeys, List.map_cons, List.nodup_cons] at h
    by_cases h2 : a = k
    · subst h2
      simp only [alDel, if_pos rfl]
      exact alGet_eq_none_of_not_mem h.1
    · simp [alDel, alGet, h2]
      exact ih h.2

theorem alSet_cons_eq {α : Type} (k : Str) (v : α) (a : Str) (b : α)
    (r : List (Str × α)) (h : a = k) : alSet k v ((a, b) :: r) = (k, v) :: r := by
  simp [alSet, h]

theorem alSet_cons_ne {α : Type} (k : Str) (v : α) (a : Str) (b : α)
    (r : List (Str × α)) (h : ¬ a = k) :
    alSet k v ((a, b) :: r) = (a, b) :: alSet k v r := by
  simp [alSet, h]

theorem mem_alKeys_alSet {α : Type} {x k : Str} {v : α} (m : List (Str × α)) :
    x ∈ alKeys (alSet k v m) → x = k ∨ x ∈ alKeys m := by
  induction m with
  | nil =>
    intro h
    simpa [alSet, alKeys] using h
  | cons p r ih =>
    intro h
    obtain ⟨a, b⟩ := p
    by_cases h2 : a = k
    · rw [alSet_cons_eq k v a b r h2] at h
      simp only [alKeys, List.map_cons, List.mem_cons] at h
      rcases h with h | h
      · exact Or.inl h
      · exact Or.inr (by simp [alKeys, h])
    · rw [alSet_cons_ne k v a b r h2] at h
      simp only [alKeys, List.map_cons, List.mem_cons] at h
      rcases h with h | h
      · refine Or.inr ?_
        simp only [alKeys, List.map_cons, List.mem_cons]
        exact Or.inl h
      · rcases ih h with h3 | h3
        · exact Or.inl h3
        · refine Or.inr ?_
          simp only [alKeys, List.map_cons, List.mem_cons]
          exact Or.inr h3

theorem alKeys_alSet_nodup {α : Type} {k : Str} {v : α} (m : List (Str × α)) :
    (alKeys m).Nodup → (alKeys (alSet k v m)).Nodup := by
  induction m with
  | nil =>
    intro _
    simp [alSet, alKeys]
  | cons p r ih =>
    intro h
    obtain ⟨a, b⟩ := p
    simp only [alKeys, List.map_cons, List.nodup_cons] at h
    by_cases h2 : a = k
    · rw [alSet_cons_eq k v a b r h2]
      simp only [alKeys, List.map_cons, List.nodup_cons]
      exact h2 ▸ h
    · rw [alSet_cons_ne k v a b r h2]
      simp only [alKeys, List.map_cons, List.nodup_cons]
      refine ⟨fun hc => ?_, ih h.2⟩
      rcases mem_alKeys_alSet r hc with h3 | h3
      · exact h2 h3
      · exact h.1 h3

-- ==========================================================
-- Claim C7: unsupported pair
-- ==========================================================

/-- C7 counterexample: for the empty text and the unsupported pair
`("de", "ja")`, `OfflineTranslatorEngine.translate` returns the text itself
(`some ""`), not `none`, refuting the claim's "for every input text". -/
theorem C7_counterexample :
    supports_pair (str "de") (str "ja") = false ∧
      offline_translate (str "") (str "de") (str "ja") = some (str "") ∧
      offline_translate (str "") (str "de") (str "ja") ≠ none := by
  refine ⟨by decide, by decide, by decide⟩

/-- C7 (amended): for every input text that is nonempty and not
whitespace-only, and every language pair with no entry in the offline
glossary, `OfflineTranslatorEngine.translate` returns `none` (empty or
whitespace-only text is returned unchanged before the pair check). -/
theorem C7_unsupported_pair_none (text source target : Str)
    (h1 : text ≠ []) (h2 : pyStrip text ≠ [])
    (h3 : supports_pair source target = false) :
    offline_translate text source target = none := by
  unfold offline_translate
  rw [if_neg, if_pos]
  · simp [h3]
  · simp [List.isEmpty_iff, h1, h2]

/-- C7 witness: the amended theorem applied at `("Hello", "de", "ja")`. -/
theorem C7_witness : offline_translate (str "Hello") (str "de") (str "ja") = none :=
  C7_unsupported_pair_none (str "Hello") (str "de") (str "ja")
    (by decide) (by decide) (by decide)

-- ==========================================================
-- Claim C3: batch statistics
-- ==========================================================

theorem batch_translate_go_stats (act : BatchStep) (es : List PoEntry)
    (s : BatchStats) :
    (batch_translate_go act es s).total = s.total ∧
      (batch_translate_go act es s).translated + (batch_translate_go act es s).skipped +
        (batch_translate_go act es s).failed =
        s.translated + s.skipped + s.failed + es.length := by
  induction es generalizing s with
  | nil => simp [batch_translate_go]
  | cons e r ih =>
    simp only [batch_translate_go]
    rcases hact : act e with u | ⟨bb, e2⟩
    · dsimp only
      have h := ih { s with failed := s.failed + 1 }
      dsimp only at h
      refine ⟨h.1, ?_⟩
      simp only [List.length_cons]
      omega
    · cases bb
      · dsimp only
        have h := ih { s with skipped := s.skipped + 1 }
        dsimp only at h
        refine ⟨h.1, ?_⟩
        simp only [List.length_cons]
        omega
      · dsimp only
        have h := ih { s with translated := s.translated + 1 }
        dsimp only at h
        refine ⟨h.1, ?_⟩
        simp only [List.length_cons]
        omega

/-- C3: for every list of entries and every per-entry behavior of
`auto_translate_entry` (including raised exceptions, which the loop catches
and counts as failed), `Translator.batch_translate` with no progress callback
returns a stats record whose `total` is the number of entries and whose
`translated`, `skipped` and `failed` counts sum to that number — the batch
always completes with a full stats report. -/
theorem C3_batch_stats_complete (act : BatchStep) (entries : List PoEntry) :
    (batch_translate act entries).total = entries.length ∧
      (batch_translate act entries).translated + (batch_translate act entries).skipped +
        (batch_translate act entries).failed = entries.length := by
  have h := batch_translate_go_stats act entries ⟨entries.length, 0, 0, 0⟩
  dsimp only at h
  simp only [batch_translate]
  exact ⟨h.1, by omega⟩

-- ==========================================================
-- Claim C10: update_entry rename onto an existing key
-- ==========================================================

/-- C10: renaming an entry onto another existing source text via
`POMerger.update_entry` returns true, stores the renamed entry under the new
key, and silently drops the entry previously stored there (the key-list
Nodup hypothesis is the dict invariant of `merged_entries`). -/
theorem C10_update_entry_overwrites (st : MergerState) (a b : Str)
    (ea : CatEntry) (hnd : (alKeys st.mergedEntries).Nodup)
    (ha : alGet a st.mergedEntries = some ea)
    (hmem : b ∈ alKeys st.mergedEntries) (hne : a ≠ b) :
    (update_entry st a (some b) none).1 = true ∧
      alGet b (update_entry st a (some b) none).2.mergedEntries =
        some { ea with msgid := b } ∧
      alGet a (update_entry st a (some b) none).2.mergedEntries = none := by
  have hbne : b ≠ a := fun h => hne h.symm
  unfold update_entry
  rw [ha]
  dsimp only
  rw [if_pos hbne]
  dsimp only
  refine ⟨rfl, ?_, ?_⟩
  · rw [alGet_alDel_ne _ hne]
    exact alGet_alSet_self b _ _
  · exact alGet_alDel_self (alKeys_alSet_nodup st.mergedEntries hnd)

/-- C10 witness: a two-entry merged set where renaming "Order" onto
"Invoice" overwrites the "Invoice" entry. -/
theorem C10_witness :
    (update_entry
        ⟨[(str "Order", ⟨str "Order", str "Commande", false⟩),
          (str "Invoice", ⟨str "Invoice", str "Facture", false⟩)], ⟨[], []⟩⟩
        (str "Order") (some (str "Invoice")) none).1 = true ∧
      alGet (str "Invoice")
        (update_entry
          ⟨[(str "Order", ⟨str "Order", str "Commande", false⟩),
            (str "Invoice", ⟨str "Invoice", str "Facture", false⟩)], ⟨[], []⟩⟩
          (str "Order") (some (str "Invoice")) none).2.mergedEntries =
        some ⟨str "Invoice", str "Commande", false⟩ ∧
      alGet (str "Order")
        (update_entry
          ⟨[(str "Order", ⟨str "Order", str "Commande", false⟩),
            (str "Invoice", ⟨str "Invoice", str "Facture", false⟩)], ⟨[], []⟩⟩
          (str "Order") (some (str "Invoice")) none).2.mergedEntries = none :=
  C10_update_entry_overwrites
    ⟨[(str "Order", ⟨str "Order", str "Commande", false⟩),
      (str "Invoice", ⟨str "Invoice", str "Facture", false⟩)], ⟨[], []⟩⟩
    (str "Order") (str "Invoice") ⟨str "Order", str "Commande", false⟩
    (by decide) (by decide) (by decide) (by decide)

-- ==========================================================
-- Claim C9: ModuleIndexer bidirectional mapping
-- ==========================================================

/-- Fold a sequence of `index_entry` calls over a fresh indexer. -/
def indexCalls (calls : List (Str × Str)) : IdxState :=
  calls.foldl (fun st c => index_entry st c.1 c.2) ⟨[], []⟩

/-- The filepath of the most recent `index_entry` call for a key. -/
def lastFileFor (calls : List (Str × Str)) (k : Str) : Option Str :=
  ((calls.filter (fun c => c.1 = k)).map Prod.snd).getLast?

theorem mem_module_list_mono (st : IdxState) (eid fp k m : Str)
    (h : k ∈ (alGet m st.moduleToEntries).getD []) :
    k ∈ (alGet m (index_entry st eid fp).moduleToEntries).getD [] := by
  unfold index_entry
  by_cases hm : extract_module_name fp = m
  · subst hm
    dsimp only
    rw [alGet_alSet_self]
    simp only [Option.getD_some]
    by_cases hc :
        ((alGet (extract_module_name fp) st.moduleToEntries).getD []).contains eid = true
    · rw [if_pos hc]
      exact h
    · rw [if_neg hc]
      exact List.mem_append.mpr (Or.inl h)
  · dsimp only
    rwa [alGet_alSet_ne _ _ hm]

/-- C9 counterexample: indexing "Invoice" first under `addons/sale` and then
under `addons/stock` leaves the key listed in the entry lists of two
distinct modules, refuting the claimed bidirectional consistency. -/
theorem C9_counterexample :
    get_module (indexCalls
        [(str "Invoice", str "addons/sale/i18n/fr.po"),
         (str "Invoice", str "addons/stock/i18n/fr.po")]) (str "Invoice") = str "stock" ∧
      str "Invoice" ∈ (alGet (str "sale")
        (indexCalls
          [(str "Invoice", str "addons/sale/i18n/fr.po"),
           (str "Invoice", str "addons/stock/i18n/fr.po")]).moduleToEntries).getD [] ∧
      str "Invoice" ∈ (alGet (str "stock")
        (indexCalls
          [(str "Invoice", str "addons/sale/i18n/fr.po"),
           (str "Invoice", str "addons/stock/i18n/fr.po")]).moduleToEntries).getD [] ∧
      str "sale" ≠ str "stock" := by
  refine ⟨by decide, by decide, by decide, by decide⟩

/-- C9 (amended): after any sequence of `index_entry` calls, `get_module`
returns the module derived from the most recent call for the key
(last-writer-wins), and the key is listed in that module's entry list; the
key may however also remain listed under modules from earlier calls, so the
bidirectional mapping is not pruned. -/
theorem C9_last_writer_wins (calls : List (Str × Str)) (k fp : Str)
    (h : lastFileFor calls k = some fp) :
    get_module (indexCalls calls) k = extract_module_name fp ∧
      k ∈ (alGet (extract_module_name fp)
        (indexCalls calls).moduleToEntries).getD [] := by
  induction calls using List.reverseRecOn with
  | nil => simp [lastFileFor] at h
  | append_singleton l c ih =>
    have hfold : indexCalls (l ++ [c]) =
        index_entry (indexCalls l) c.1 c.2 := by
      simp [indexCalls, List.foldl_append]
    by_cases hk : c.1 = k
    · have hlast : fp = c.2 := by
        unfold lastFileFor at h
        rw [List.filter_append] at h
        simp only [List.filter_cons, List.filter_nil, hk, decide_True,
          if_true, List.map_append, List.map_cons, List.map_nil] at h
        rw [List.getLast?_concat] at h
        exact (Option.some_inj.mp h).symm
      subst hlast
      rw [hfold]
      constructor
      · unfold index_entry get_module
        subst hk
        dsimp only
        rw [alGet_alSet_self]
        rfl
      · unfold index_entry
        dsimp only
        rw [alGet_alSet_self]
        simp only [Option.getD_some]
        subst hk
        by_cases hc : ((alGet (extract_module_name c.2)
            (indexCalls l).moduleToEntries).getD []).contains c.1 = true
        · rw [if_pos hc]
          simpa using hc
        · rw [if_neg hc]
          exact List.mem_append.mpr (Or.inr (by simp))
    · have hlast : lastFileFor l k = some fp := by
        unfold lastFileFor at h ⊢
        rw [List.filter_append] at h
        simp only [List.filter_cons, List.filter_nil, hk, decide_False,
          Bool.false_eq_true, if_false, List.append_nil] at h
        exact h
      have ihres := ih hlast
      rw [hfold]
      refine ⟨?_, mem_module_list_mono _ _ _ _ _ ihres.2⟩
      unfold index_entry get_module
      dsimp only
      rw [alGet_alSet_ne _ _ hk]
      exact ihres.1

/-- C9 witness: the amended theorem applied to a single concrete call. -/
theorem C9_witness :
    get_module (indexCalls [(str "Invoice", str "addons/sale/i18n/fr.po")])
        (str "Invoice") = extract_module_name (str "addons/sale/i18n/fr.po") ∧
      str "Invoice" ∈ (alGet (extract_module_name (str "addons/sale/i18n/fr.po"))
        (indexCalls [(str "Invoice", str "addons/sale/i18n/fr.po")]).moduleToEntries).getD [] :=
  C9_last_writer_wins [(str "Invoice", str "addons/sale/i18n/fr.po")]
    (str "Invoice") (str "addons/sale/i18n/fr.po") (by decide)

-- ==========================================================
-- Claim C4: detect_language confidence threshold
-- ==========================================================

/-- Oracles for the C4 evaluation: `langid` reports German at confidence
0.5, Google detection is unavailable, `langdetect` finds nothing. -/
def c4Ora : DetOracles :=
  ⟨fun _ => (str "de", cf 1 2), fun _ => none, fun _ => []⟩

/-- C4: evaluation at the failing input.  The best available verdict for
`"zz qq rr"` is `("de", 0.5)`, strictly below the 0.7 threshold, yet
`detect_language` returns `some "de"` rather than `none`: both branches of
its final conditional return `lang` in the source, so the threshold is never
enforced. -/
theorem C4_low_confidence_still_returned :
    cle (cf 7 10) (detect_language_details c4Ora (str "zz qq rr") (cf 7 10)).2 = false ∧
      detect_language c4Ora (str "zz qq rr") (cf 7 10) = some (str "de") := by
  refine ⟨by decide, by decide⟩

-- ==========================================================
-- Claim C5: statistical fallback reclassification
-- ==========================================================

/-- Oracles for the C5 counterexample: `langid` reports English at 0.5,
Google detection is unavailable, and `langdetect`'s top candidate is Danish
at probability 0.9. -/
def c5Ora : DetOracles :=
  ⟨fun _ => (str "en", cf 1 2), fun _ => none, fun _ => [(str "da", cf 9 10)]⟩

/-- C5 counterexample: for the four-word text `"the ici zz qq"` (which
contains the English indicator "the"), the statistical fallback's Danish
verdict is reclassified as *French* with the candidate's own probability —
not as English with confidence at least 0.80 as the claim states. -/
theorem C5_counterexample :
    c5Ora.dlangs (str "the ici zz qq") = [(str "da", cf 9 10)] ∧
      1 ≤ indCount englishInd (pyLower (str "the ici zz qq")) ∧
      detect_language_details c5Ora (str "the ici zz qq") (cf 7 10) =
        (some (str "fr"), cf 9 10) ∧
      (detect_language_details c5Ora (str "the ici zz qq") (cf 7 10)).1 ≠
        some (str "en") := by
  refine ⟨by decide, by decide, by decide, by decide⟩

/-- C5 (amended): in the statistical fallback stage (texts of 3 or more
words reaching the last detection stage), a top candidate whose normalized
code is Afrikaans, Dutch, Norwegian, Danish or Swedish is reclassified as
French with the candidate's own probability as confidence, regardless of any
English indicators in the text — the stage-2 Scandinavian-to-English rule is
not applied there. -/
theorem C5_fallback_scandinavian_to_french (o : DetOracles) (text : Str)
    (minConf p : Conf) (code : Str) (rest : List (Str × Conf))
    (hne : text ≠ []) (hns : pyStrip text ≠ [])
    (hh : (heuristic_detect text).1 = none)
    (hli : otruthy (detect_with_langid o text).1 = false ∨
      cle minConf (detect_with_langid o text).2 = false)
    (hg : otruthy (detect_with_google o text).1 = false ∨
      cle minConf (detect_with_google o text).2 = false)
    (hw : 3 ≤ (pySplit text).length)
    (hd : o.dlangs text = (code, p) :: rest)
    (hsc : normCode (some code) ∈ fallbackFr.map some) :
    detect_language_details o text minConf = (some (str "fr"), p) := by
  unfold detect_language_details
  rw [if_neg (by simp [List.isEmpty_iff, hne, hns])]
  have hhb : otruthy (heuristic_detect text).1 = false := by
    rw [hh]; rfl
  rw [if_neg (by simp [hhb])]
  have hlib : (otruthy (detect_with_langid o text).1 &&
      cle minConf (detect_with_langid o text).2) = false := by
    rcases hli with h | h
    · simp [h]
    · simp [h]
  rw [if_neg (by simp only [hlib]; exact Bool.false_ne_true)]
  have hgb : (otruthy (detect_with_google o text).1 &&
      cle minConf (detect_with_google o text).2) = false := by
    rcases hg with h | h
    · simp [h]
    · simp [h]
  rw [if_neg (by simp only [hgb]; exact Bool.false_ne_true)]
  rw [if_neg (by simp [hhb])]
  rw [if_pos hw, hd]
  dsimp only
  rw [if_pos (by simpa using hsc)]

/-- C5 witness: the amended theorem applied at the concrete text and oracles
of the development. -/
theorem C5_witness :
    detect_language_details c5Ora (str "the ici zz qq") (cf 7 10) =
      (some (str "fr"), cf 9 10) :=
  C5_fallback_scandinavian_to_french c5Ora (str "the ici zz qq") (cf 7 10)
    (cf 9 10) (str "da") [] (by decide) (by decide) (by decide)
    (Or.inr (by decide)) (Or.inl (by decide)) (by decide) (by decide)
    (by decide)

-- ==========================================================
-- Claim C6: skip of already-translated entries
-- ==========================================================

/-- Oracles for the C6 counterexample: `langid` reports English at 0.9. -/
def c6Ora : DetOracles :=
  ⟨fun _ => (str "en", cf 9 10), fun _ => none, fun _ => []⟩

/-- Provider oracle for the C6 counterexample (never reached: offline mode). -/
def c6Gen : GenOracle := fun _ => none

/-- Translator state for the C6 counterexample: en→fr, auto-detect on,
offline mode, empty cache. -/
def c6State : TrState :=
  ⟨str "en", str "fr", true, true, false, [], [], ⟨0, 0, 0, 0, 0, 0⟩⟩

/-- C6 counterexample: the entry `msgid = msgstr = "Order"` has a non-empty
`translated_text`, yet `auto_translate_entry` with `force = false` translates
it (the skip test also requires `msgid != msgstr`), returns true and
overwrites `msgstr` with "Commande". -/
theorem C6_counterexample :
    (⟨str "Order", str "Order"⟩ : PoEntry).msgstr ≠ [] ∧
      (auto_translate_entry c6Ora c6Gen c6State ⟨str "Order", str "Order"⟩
        none false).1 = true ∧
      (auto_translate_entry c6Ora c6Gen c6State ⟨str "Order", str "Order"⟩
        none false).2.1.msgstr = str "Commande" := by
  refine ⟨by decide, by decide, by decide⟩

/-- C6 (amended): for every entry whose `translated_text` is non-empty *and
differs from its source text*, `auto_translate_entry` with `force = false`
returns false and leaves the entry and the translator state unchanged; an
entry whose non-empty translation equals its source text is treated as
untranslated and is not skipped by this rule. -/
theorem C6_skip_translated (o : DetOracles) (gen : GenOracle) (st : TrState)
    (entry : PoEntry) (module : Option Str)
    (h1 : entry.msgstr ≠ []) (h2 : entry.msgid ≠ entry.msgstr) :
    auto_translate_entry o gen st entry module false = (false, entry, st) := by
  unfold auto_translate_entry
  by_cases h3 : entry.msgid.isEmpty = true
  · rw [if_pos h3]
  · rw [if_neg h3]
    by_cases h4 : (pyStrip entry.msgid).isEmpty = true
    · rw [if_pos h4]
    · rw [if_neg h4]
      rw [if_pos]
      simp [h1, h2, List.isEmpty_iff]

/-- C6 witness: the amended theorem applied at a concrete translated entry. -/
theorem C6_witness :
    auto_translate_entry c6Ora c6Gen c6State ⟨str "Order", str "Commande"⟩
      none false = (false, ⟨str "Order", str "Commande"⟩, c6State) :=
  C6_skip_translated c6Ora c6Gen c6State ⟨str "Order", str "Commande"⟩ none
    (by decide) (by decide)

-- ==========================================================
-- Claim C2: merge dedup win policy
-- ==========================================================

/-- Combine a chain of same-key entries with the merge policy, starting from
an optional already-present entry. -/
def combineList (init : Option CatEntry) (es : List CatEntry) : Option CatEntry :=
  es.foldl (fun acc e =>
    match acc with
    | none => some e
    | some a => some (merge_entries a e)) init

/-- The translation the win policy selects from a same-key run: the first
non-empty one (empty when all are empty). -/
def winTranslation (ts : List Str) : Str :=
  (ts.filter (fun t => !t.isEmpty)).headD []

theorem alGet_mergeFold (es : List CatEntry) (m : List (Str × CatEntry)) (k : Str) :
    alGet k (mergeFold es m) =
      combineList (alGet k m) (es.filter (fun e => e.msgid = k)) := by
  induction es generalizing m with
  | nil => simp [mergeFold, combineList]
  | cons e r ih =>
    have hstep : mergeFold (e :: r) m = mergeFold r
        (match alGet e.msgid m with
         | some old => alSet e.msgid (merge_entries old e) m
         | none => alSet e.msgid e m) := by
      simp [mergeFold]
    rw [hstep, ih]
    by_cases hk : e.msgid = k
    · subst hk
      have hget : alGet e.msgid (match alGet e.msgid m with
          | some old => alSet e.msgid (merge_entries old e) m
          | none => alSet e.msgid e m) =
          (match alGet e.msgid m with
           | some old => some (merge_entries old e)
           | none => some e) := by
        cases alGet e.msgid m with
        | none => exact alGet_alSet_self _ _ _
        | some old => exact alGet_alSet_self _ _ _
      rw [hget]
      simp only [List.filter_cons, decide_True, if_true]
      cases alGet e.msgid m with
      | none => simp [combineList]
      | some old => simp [combineList]
    · have hget : alGet k (match alGet e.msgid m with
          | some old => alSet e.msgid (merge_entries old e) m
          | none => alSet e.msgid e m) = alGet k m := by
        cases alGet e.msgid m with
        | none => exact alGet_alSet_ne _ _ hk
        | some old => exact alGet_alSet_ne _ _ hk
      rw [hget]
      simp only [List.filter_cons, hk, decide_False, Bool.false_eq_true, if_false]

theorem combineList_some (es : List CatEntry) (acc : CatEntry) :
    combineList (some acc) es =
      some (if acc.msgstr.isEmpty then
        { acc with msgstr := winTranslation (es.map (fun e => e.msgstr)) }
      else acc) := by
  induction es generalizing acc with
  | nil =>
    by_cases h : acc.msgstr.isEmpty = true
    · have hnil : acc.msgstr = [] := by simpa [List.isEmpty_iff] using h
      simp only [combineList, List.foldl_nil, winTranslation, List.map_nil,
        List.filter_nil, List.headD_nil, h, if_true]
      cases acc with
      | mk i st ob =>
        simp only at hnil
        subst hnil
        rfl
    · simp [combineList, h]
  | cons e r ih =>
    have hstep : combineList (some acc) (e :: r) =
        combineList (some (merge_entries acc e)) r := by
      simp [combineList]
    rw [hstep]
    by_cases h : acc.msgstr.isEmpty = true
    · have hme : merge_entries acc e = { acc with msgstr := e.msgstr } := by
        unfold merge_entries
        simp [h]
      rw [hme, ih]
      by_cases h2 : e.msgstr.isEmpty = true
      · simp only [h2, if_true, h, if_true]
        have hw : winTranslation ((e :: r).map (fun x => x.msgstr)) =
            winTranslation (r.map (fun x => x.msgstr)) := by
          simp [winTranslation, List.filter_cons, h2]
        rw [hw]
      · simp only [h2, Bool.false_eq_true, if_false, h, if_true]
        have he : e.msgstr ≠ [] := by simpa [List.isEmpty_iff] using h2
        have hw : winTranslation ((e :: r).map (fun x => x.msgstr)) = e.msgstr := by
          simp [winTranslation, List.filter_cons, h2]
        rw [hw]
    · have hme : merge_entries acc e = acc := by
        unfold merge_entries
        simp [h]
      rw [hme, ih]
      simp [h]

theorem mergeFold_nodup (es : List CatEntry) (m : List (Str × CatEntry))
    (h : (alKeys m).Nodup) : (alKeys (mergeFold es m)).Nodup := by
  induction es generalizing m with
  | nil => simpa [mergeFold] using h
  | cons e r ih =>
    have hstep : mergeFold (e :: r) m = mergeFold r
        (match alGet e.msgid m with
         | some old => alSet e.msgid (merge_entries old e) m
         | none => alSet e.msgid e m) := by
      simp [mergeFold]
    rw [hstep]
    apply ih
    cases alGet e.msgid m with
    | none => exact alKeys_alSet_nodup m h
    | some old => exact alKeys_alSet_nodup m h

/-- C2: entries sharing a source text collapse to a single merged entry
whose translation follows the win policy — the merged dict's keys are
duplicate-free, and the entry found under any key carries that key as its
source text and, as translation, the first non-empty `translated_text` among
its same-key occurrences in cleaned collection order (so a non-empty
translation beats an empty one, and the first-seen wins among non-empty
ones).  (`POCleaner.merge_entries` and `clean_entries` are modelled from the
spec; `core/cleaner.py` is not under src/.) -/
theorem C2_dedup_win_policy (files : List (Str × Option (List CatEntry)))
    (k : Str) (e : CatEntry)
    (h : alGet k (merge_files files).mergedEntries = some e) :
    (alKeys (merge_files files).mergedEntries).Nodup ∧ e.msgid = k ∧
      e.msgstr = winTranslation
        (((clean_entries (collectFiles files).2).filter
          (fun x => x.msgid = k)).map (fun x => x.msgstr)) := by
  refine ⟨mergeFold_nodup _ [] (by simp [alKeys]), ?_⟩
  have hm : (merge_files files).mergedEntries =
      mergeFold (clean_entries (collectFiles files).2) [] := rfl
  rw [hm, alGet_mergeFold] at h
  have hnil : alGet k ([] : List (Str × CatEntry)) = none := rfl
  rw [hnil] at h
  cases hocc : (clean_entries (collectFiles files).2).filter
      (fun x => x.msgid = k) with
  | nil =>
    rw [hocc] at h
    simp [combineList] at h
  | cons e0 r =>
    rw [hocc] at h
    have hstep : combineList none (e0 :: r) = combineList (some e0) r := by
      simp [combineList]
    rw [hstep, combineList_some] at h
    have he0 : e0.msgid = k := by
      have : e0 ∈ (clean_entries (collectFiles files).2).filter
          (fun x => x.msgid = k) := by
        rw [hocc]
        exact List.mem_cons_self e0 r
      simpa using (List.of_mem_filter this)
    by_cases h2 : e0.msgstr.isEmpty = true
    · rw [if_pos h2] at h
      have he : e = { e0 with msgstr := winTranslation (r.map (fun x => x.msgstr)) } :=
        (Option.some_inj.mp h).symm
      have hwin : winTranslation ((e0 :: r).map (fun x => x.msgstr)) =
          winTranslation (r.map (fun x => x.msgstr)) := by
        simp [winTranslation, List.filter_cons, h2]
      rw [he, hwin]
      exact ⟨he0, rfl⟩
    · rw [if_neg h2] at h
      have he : e = e0 := (Option.some_inj.mp h).symm
      have hwin : winTranslation ((e0 :: r).map (fun x => x.msgstr)) = e0.msgstr := by
        simp [winTranslation, List.filter_cons, h2]
      rw [he, hwin]
      exact ⟨he0, rfl⟩

/-- The two catalogs of the spec's Invoice example. -/
def c2Files : List (Str × Option (List CatEntry)) :=
  [(str "a.po", some [⟨str "Invoice", str "", false⟩]),
   (str "b.po", some [⟨str "Invoice", str "Facture", false⟩])]

/-- C2 witness: merging the Invoice example yields the single entry
`"Invoice" → "Facture"`, and the main theorem applied there confirms the win
policy. -/
theorem C2_witness :
    alGet (str "Invoice") (merge_files c2Files).mergedEntries =
      some ⟨str "Invoice", str "Facture", false⟩ ∧
      (⟨str "Invoice", str "Facture", false⟩ : CatEntry).msgid = str "Invoice" ∧
      (⟨str "Invoice", str "Facture", false⟩ : CatEntry).msgstr = winTranslation
        (((clean_entries (collectFiles c2Files).2).filter
          (fun x => x.msgid = str "Invoice")).map (fun x => x.msgstr)) :=
  ⟨by decide,
    (C2_dedup_win_policy c2Files (str "Invoice")
      ⟨str "Invoice", str "Facture", false⟩ (by decide)).2⟩

-- ==========================================================
-- Claim C8: capitalization transfer
-- ==========================================================

/-- All glossary keys (phrase and word source sides of every pair). -/
def glossKeys : List Str :=
  ((enFrPhrases ++ frEnPhrases ++ enEsPhrases ++ esEnPhrases).map
    (fun p => p.1.data)) ++
  ((enFrWords ++ frEnWords ++ enEsWords ++ esEnWords).map (fun p => p.1.data))

/-- All glossary replacements (phrase and word target sides of every pair). -/
def glossTargets : List Str :=
  ((enFrPhrases ++ frEnPhrases ++ enEsPhrases ++ esEnPhrases).map
    (fun p => p.2.data)) ++
  ((enFrWords ++ frEnWords ++ enEsWords ++ esEnWords).map (fun p => p.2.data))

/-- Adjacent pair of characters that lowercase to lowercase letters. -/
def hasAdjLetters : Str → Bool
  | c1 :: c2 :: r => (isLoC (loC c1) && isLoC (loC c2)) || hasAdjLetters (c2 :: r)
  | _ => false

/-- Adjacent pair of cased characters. -/
def hasAdjCased : Str → Bool
  | c1 :: c2 :: r => (isCasedC c1 && isCasedC c2) || hasAdjCased (c2 :: r)
  | _ => false

/-- Adjacent pair of uppercase characters. -/
def hasAdjUp : Str → Bool
  | c1 :: c2 :: r => (isUpC c1 && isUpC c2) || hasAdjUp (c2 :: r)
  | _ => false

/-- The per-target facts the case-preservation claim needs, all decidable. -/
def targetOkB (t : Str) : Bool :=
  !t.isEmpty && pyIsUpper (pyUpper t) && pyIsLower (pyLower t) &&
    pyIsTitle (pyTitle t) &&
    (match t with
     | [] => false
     | tc :: ts => isUpC (upC tc) && ts.all (fun c => !isUpC c))

theorem glossTargets_ok : glossTargets.all targetOkB = true := by decide

theorem glossKeys_ok : glossKeys.all (fun k => !k.isEmpty && hasAdjLetters k) = true := by
  decide

theorem lower_not_upper {s : Str} (h : pyIsLower s = true) : pyIsUpper s = false := by
  simp only [pyIsLower, Bool.and_eq_true, List.any_eq_true, List.all_eq_true] at h
  obtain ⟨⟨c, hc, hcc⟩, hall⟩ := h
  have hnu := hall c hc
  cases hv : pyIsUpper s with
  | false => rfl
  | true =>
    exfalso
    simp only [pyIsUpper, Bool.and_eq_true, List.all_eq_true] at hv
    have hnl := hv.2 c hc
    simp only [Bool.not_eq_true'] at hnu hnl
    simp [isCasedC, hnu, hnl] at hcc

theorem titleGo_no_upper (s : Str) (hs : ∀ c ∈ s, isUpC c = false)
    (hl : ∃ c ∈ s, isLoC c = true) : ∀ seen, pyIsTitleGo seen false s = false := by
  induction s with
  | nil => simp at hl
  | cons c r ih =>
    intro seen
    have hcu : isUpC c = false := hs c (List.mem_cons_self c r)
    by_cases hcl : isLoC c = true
    · simp [pyIsTitleGo, hcu, hcl]
    · have hl2 : ∃ d ∈ r, isLoC d = true := by
        obtain ⟨d, hd, hdl⟩ := hl
        rcases List.mem_cons.mp hd with h | h
        · exact absurd (h ▸ hdl) hcl
        · exact ⟨d, h, hdl⟩
      have hs2 : ∀ d ∈ r, isUpC d = false := fun d hd => hs d (List.mem_cons_of_mem c hd)
      simp only [pyIsTitleGo, hcu, Bool.false_eq_true, if_false]
      rw [if_neg (by simp [hcl])]
      exact ih hs2 hl2 seen

theorem title_not_lower {s : Str} (ht : pyIsTitle s = true) : pyIsLower s = false := by
  cases hv : pyIsLower s with
  | false => rfl
  | true =>
    exfalso
    simp only [pyIsLower, Bool.and_eq_true, List.any_eq_true, List.all_eq_true] at hv
    obtain ⟨⟨c, hc, hcc⟩, hall⟩ := hv
    have hcl : isLoC c = true := by
      have := hall c hc
      simp only [Bool.not_eq_true'] at this
      simp [isCasedC, this] at hcc
      exact hcc
    have := titleGo_no_upper s
      (fun d hd => by simpa using hall d hd) ⟨c, hc, hcl⟩ false
    rw [pyIsTitle] at ht
    rw [this] at ht
    exact Bool.false_ne_true ht

theorem titleGo_adjacent_up (s : Str) (h : hasAdjUp s = true) :
    ∀ seen prev, pyIsTitleGo seen prev s = false := by
  induction s with
  | nil => simp [hasAdjUp] at h
  | cons c r ih =>
    intro seen prev
    cases r with
    | nil => simp [hasAdjUp] at h
    | cons c2 r2 =>
      simp only [hasAdjUp, Bool.or_eq_true, Bool.and_eq_true] at h
      by_cases hcu : isUpC c = true
      · cases prev with
        | true => simp [pyIsTitleGo, hcu]
        | false =>
          simp only [pyIsTitleGo, hcu, if_true]
          rcases h with ⟨_, hc2⟩ | h
          · simp [pyIsTitleGo, hc2]
          · exact ih h true true
      · have h2 : hasAdjUp (c2 :: r2) = true := by
          rcases h with ⟨hc, _⟩ | h
          · exact absurd hc hcu
          · exact h
        by_cases hcl : isLoC c = true
        · cases prev with
          | false => simp [pyIsTitleGo, hcu, hcl]
          | true =>
            simp only [pyIsTitleGo, hcu, Bool.false_eq_true, if_false, hcl, if_true]
            exact ih h2 true true
        · simp only [pyIsTitleGo, hcu, Bool.false_eq_true, if_false]
          rw [if_neg (by simp [hcl])]
          exact ih h2 seen false

theorem ciEq_cased {a b : Char} (h : ciEq a b = true) (ha : isLoC (loC a) = true) :
    isCasedC b = true := by
  by_cases hub : isUpC b = true
  · simp [isCasedC, hub]
  · have hlb : loC b = b := by
      unfold loC
      rw [if_neg (by simp [hub])]
    simp only [ciEq, beq_iff_eq] at h
    have : isLoC b = true := by
      rw [← hlb, ← h]
      exact ha
    simp [isCasedC, this]

theorem adj_transfer (key src : Str) (hp : ciIsPfx key src = true)
    (ha : hasAdjLetters key = true) : hasAdjCased src = true := by
  induction key generalizing src with
  | nil => simp [hasAdjLetters] at ha
  | cons k1 kr ih =>
    cases kr with
    | nil => simp [hasAdjLetters] at ha
    | cons k2 kr2 =>
      cases src with
      | nil => simp [ciIsPfx] at hp
      | cons c1 cr =>
        cases cr with
        | nil =>
          simp only [ciIsPfx, Bool.and_eq_true] at hp
          simp [ciIsPfx] at hp
        | cons c2 cr2 =>
          simp only [ciIsPfx, Bool.and_eq_true] at hp
          have h1 := hp.1
          have h2 := hp.2.1
          have h3 := hp.2.2
          simp only [hasAdjLetters, Bool.or_eq_true, Bool.and_eq_true] at ha
          rcases ha with ⟨ha1, ha2⟩ | ha
          · have hc1 : isCasedC c1 = true := ciEq_cased h1 ha1
            have hc2 : isCasedC c2 = true := ciEq_cased h2 ha2
            simp [hasAdjCased, hc1, hc2]
          · have := ih (c2 :: cr2) (by simp [ciIsPfx, h2, h3]) ha
            simp [hasAdjCased, this]

theorem adjCased_up (s : Str) (hall : s.all (fun c => !isLoC c) = true)
    (h : hasAdjCased s = true) : hasAdjUp s = true := by
  induction s with
  | nil => simp [hasAdjCased] at h
  | cons c r ih =>
    cases r with
    | nil => simp [hasAdjCased] at h
    | cons c2 r2 =>
      simp only [List.all_cons, Bool.and_eq_true] at hall
      simp only [hasAdjCased, Bool.or_eq_true, Bool.and_eq_true] at h
      rcases h with ⟨h1, h2⟩ | h
      · have hu1 : isUpC c = true := by
          have := hall.1
          simp only [Bool.not_eq_true'] at this
          simp [isCasedC, this] at h1
          exact h1
        have hu2 : isUpC c2 = true := by
          have := hall.2.1
          simp only [Bool.not_eq_true'] at this
          simp [isCasedC, this] at h2
          exact h2
        simp [hasAdjUp, hu1, hu2]
      · have := ih (by simp [hall.2.1, hall.2.2]) h
        simp [hasAdjUp, this]

/-- C8: for every glossary substitution — a source token `src` that is a
character-wise case-insensitive match of a glossary key, replaced by a
glossary target `tgt` — `_apply_case` re-applies the token's capitalization
pattern: an all-uppercase token yields an all-uppercase replacement, an
all-lowercase token a lowercase one, a title-case token a title-case one,
and a token that is none of these but starts with a capital yields the
replacement with its first letter capitalized and no other uppercase letter. -/
theorem C8_case_preservation (src key tgt : Str)
    (hk : key ∈ glossKeys) (ht : tgt ∈ glossTargets)
    (hci : ciIsPfx key src = true) (hlen : src.length = key.length) :
    (pyIsUpper src = true → pyIsUpper (apply_case src tgt) = true) ∧
    (pyIsLower src = true → pyIsLower (apply_case src tgt) = true) ∧
    (pyIsTitle src = true → pyIsTitle (apply_case src tgt) = true) ∧
    (pyIsUpper src = false → pyIsLower src = false → pyIsTitle src = false →
      ∀ sc ss, src = sc :: ss → isUpC sc = true →
        ∃ tc ts, tgt = tc :: ts ∧ apply_case src tgt = upC tc :: ts ∧
          isUpC (upC tc) = true ∧ ts.all (fun c => !isUpC c) = true) := by
  have htf := List.all_eq_true.mp glossTargets_ok tgt ht
  have hkf := List.all_eq_true.mp glossKeys_ok key hk
  simp only [Bool.and_eq_true] at hkf
  obtain ⟨tc, ts, rfl⟩ : ∃ tc ts, tgt = tc :: ts := by
    cases tgt with
    | nil =>
      exfalso
      simp [targetOkB] at htf
    | cons a b => exact ⟨a, b, rfl⟩
  obtain ⟨sc, ss, rfl⟩ : ∃ sc ss, src = sc :: ss := by
    cases src with
    | nil =>
      exfalso
      cases key with
      | nil => simp at hkf
      | cons a b => simp [ciIsPfx] at hci
    | cons a b => exact ⟨a, b, rfl⟩
  simp only [targetOkB, Bool.and_eq_true] at htf
  have htUp : pyIsUpper (pyUpper (tc :: ts)) = true := htf.1.1.1.2
  have htLo : pyIsLower (pyLower (tc :: ts)) = true := htf.1.1.2
  have htTi : pyIsTitle (pyTitle (tc :: ts)) = true := htf.1.2
  have htHd : isUpC (upC tc) = true ∧ ts.all (fun c => !isUpC c) = true := by
    have := htf.2
    simpa using this
  have hup_false_of_title : pyIsTitle (sc :: ss) = true → pyIsUpper (sc :: ss) = false := by
    intro h3
    cases hv : pyIsUpper (sc :: ss) with
    | false => rfl
    | true =>
      exfalso
      have hadjc : hasAdjCased (sc :: ss) = true := adj_transfer key _ hci hkf.2
      have hallnl : (sc :: ss).all (fun c => !isLoC c) = true := by
        simp only [pyIsUpper, Bool.and_eq_true] at hv
        exact hv.2
      have hadju := adjCased_up _ hallnl hadjc
      have := titleGo_adjacent_up _ hadju false false
      rw [pyIsTitle] at h3
      rw [this] at h3
      exact Bool.false_ne_true h3
  refine ⟨?_, ?_, ?_, ?_⟩
  · intro h1
    unfold apply_case
    dsimp only
    rw [if_pos h1]
    exact htUp
  · intro h2
    unfold apply_case
    dsimp only
    rw [if_neg (by simp [lower_not_upper h2]), if_pos h2]
    exact htLo
  · intro h3
    unfold apply_case
    dsimp only
    rw [if_neg (by simp [hup_false_of_title h3]),
      if_neg (by simp [title_not_lower h3]), if_pos h3]
    exact htTi
  · intro hup hlo hti sc' ss' hsrc hsc
    refine ⟨tc, ts, rfl, ?_, htHd.1, htHd.2⟩
    have hscs : sc' = sc := by
      injection hsrc with h _
      exact h.symm
    subst hscs
    unfold apply_case
    dsimp only
    rw [if_neg (by simp [hup]), if_neg (by simp [hlo]), if_neg (by simp [hti]),
      if_pos hsc]

/-- C8 witness: the theorem applied to the all-uppercase match "ORDER" of the
key "order" with the replacement "commande". -/
theorem C8_witness : pyIsUpper (apply_case (str "ORDER") (str "commande")) = true :=
  (C8_case_preservation (str "ORDER") (str "order") (str "commande")
    (by decide) (by decide) (by decide) (by decide)).1 (by decide)

-- ==========================================================
-- Claim C1: placeholder multiset preservation
-- ==========================================================

/-- C1 counterexample: the placeholder token `{a  b}` (two inner spaces) is
stashed and restored intact, but the final whitespace-normalization pass
collapses its inner run, so the output's placeholder multiset `{a b}`
differs from the input's, for the supported pair `("en", "fr")`. -/
theorem C1_counterexample :
    supports_pair (str "en") (str "fr") = true ∧
      offline_translate (str "\x7ba  b\x7d") (str "en") (str "fr") =
        some (str "\x7ba b\x7d") ∧
      phTokens (str "\x7ba  b\x7d") = [str "\x7ba  b\x7d"] ∧
      phTokens (str "\x7ba b\x7d") = [str "\x7ba b\x7d"] ∧
      (phTokens (str "\x7ba b\x7d") : Multiset Str) ≠
        (phTokens (str "\x7ba  b\x7d") : Multiset Str) := by
  refine ⟨by decide, by decide, by decide, by decide, by decide⟩

/-- Well-formed placeholder tokens: the exact full matches of
`PLACEHOLDER_PATTERN` (the dead double-brace alternative has no exact full
match of its own: the third alternative consumes any such string first). -/
inductive PHTok : Str → Prop
  | pcts : PHTok ['%', 's']
  | named (w : Str) (h1 : w ≠ []) (h2 : ')' ∉ w) :
      PHTok ('%' :: '(' :: (w ++ [')', 's']))
  | brace (w : Str) (h1 : w ≠ []) (h2 : rbr ∉ w) :
      PHTok (lbr :: (w ++ [rbr]))
  | dollar (w : Str) (h1 : w ≠ []) (h2 : rbr ∉ w) :
      PHTok ('$' :: lbr :: (w ++ [rbr]))

/-- Characters a literal segment may contain: anything except the scan
triggers `%`, `{`, `$` and the marker character `_`. -/
def litSafeB (c : Char) : Bool :=
  !(c == '%') && !(c == lbr) && !(c == '$') && !(c == '_')

/-- A literal segment is safe when all its characters are. -/
def LitOk (l : Str) : Prop := ∀ c ∈ l, litSafeB c = true

/-- A token is acceptable for the placeholder round-trip: a well-formed
placeholder containing neither whitespace nor underscores. -/
def TokOk (t : Str) : Prop :=
  PHTok t ∧ (∀ c ∈ t, isWsC c = false) ∧ (∀ c ∈ t, c ≠ '_')

/-- Alternation of a leading literal and (token, literal) segments. -/
def joinSegs : Str → List (Str × Str) → Str
  | l0, [] => l0
  | l0, (t, l) :: r => l0 ++ t ++ joinSegs l r

/-- The same alternation with markers in place of the tokens, numbering from
`n` (the stashed form). -/
def joinMk : Nat → Str → List Str → Str
  | _, l0, [] => l0
  | n, l0, l :: r => l0 ++ marker n ++ joinMk (n + 1) l r

/-- Interleave restored tokens with their trailing literals. -/
def joinBack : List Str → List Str → Str
  | t :: ts, l :: ls => t ++ l ++ joinBack ts ls
  | _, _ => []

-- ==========================================================
-- Generic scanning utilities
-- ==========================================================

theorem takeWhile_append_all {p : Char → Bool} (w y : Str)
    (hw : ∀ c ∈ w, p c = true) :
    (w ++ y).takeWhile p = w ++ y.takeWhile p := by
  induction w with
  | nil => simp
  | cons c r ih =>
    have hc := hw c (List.mem_cons_self c r)
    simp only [List.cons_append, List.takeWhile_cons, hc, if_true]
    rw [ih (fun d hd => hw d (List.mem_cons_of_mem c hd))]

theorem dropWhile_append_all {p : Char → Bool} (w y : Str)
    (hw : ∀ c ∈ w, p c = true) :
    (w ++ y).dropWhile p = y.dropWhile p := by
  induction w with
  | nil => simp
  | cons c r ih =>
    have hc := hw c (List.mem_cons_self c r)
    simp only [List.cons_append, List.dropWhile_cons, hc, if_true]
    exact ih (fun d hd => hw d (List.mem_cons_of_mem c hd))

theorem takeWhile_append_stop {p : Char → Bool} (a b : Str)
    (hb : b = [] ∨ ∃ c r, b = c :: r ∧ p c = false) :
    (a ++ b).takeWhile p = a.takeWhile p := by
  induction a with
  | nil =>
    rcases hb with h | ⟨c, r, h, hc⟩
    · simp [h]
    · simp [h, List.takeWhile_cons, hc]
  | cons c r ih =>
    by_cases hc : p c = true
    · simp only [List.cons_append, List.takeWhile_cons, hc, if_true]
      rw [ih]
    · simp [List.takeWhile_cons, hc]

theorem dropWhile_append_stop {p : Char → Bool} (a b : Str)
    (hb : b = [] ∨ ∃ c r, b = c :: r ∧ p c = false) :
    (a ++ b).dropWhile p = a.dropWhile p ++ b := by
  induction a with
  | nil =>
    rcases hb with h | ⟨c, r, h, hc⟩
    · simp [h]
    · simp [h, List.dropWhile_cons, hc]
  | cons c r ih =>
    by_cases hc : p c = true
    · simp only [List.cons_append, List.dropWhile_cons, hc, if_true]
      exact ih
    · simp [List.dropWhile_cons, hc]

-- Step equations for the fueled scanners (fuel only needs to exceed the
-- string length; each lemma re-expresses one scanning step).

theorem repAllGo_nil (f : Nat) (p r : Str) : repAllGo f p r [] = [] := by
  cases f <;> rfl

theorem repAllGo_fuel (p r : Str) :
    ∀ N f g s, List.length s ≤ N → List.length s ≤ f → List.length s ≤ g →
      repAllGo f p r s = repAllGo g p r s := by
  intro N
  induction N with
  | zero =>
    intro f g s hN _ _
    have : s = [] := List.length_eq_zero.mp (Nat.le_zero.mp hN)
    subst this
    rw [repAllGo_nil, repAllGo_nil]
  | succ N ih =>
    intro f g s hN hf hg
    cases s with
    | nil => rw [repAllGo_nil, repAllGo_nil]
    | cons c cs =>
      simp only [List.length_cons] at hN hf hg
      obtain ⟨f', rfl⟩ : ∃ f', f = f' + 1 := ⟨f - 1, by omega⟩
      obtain ⟨g', rfl⟩ : ∃ g', g = g' + 1 := ⟨g - 1, by omega⟩
      by_cases h : (!p.isEmpty && p.isPrefixOf (c :: cs)) = true
      · have hp : p ≠ [] := by
          simp only [Bool.and_eq_true, Bool.not_eq_true'] at h
          exact fun hc => by simp [hc, List.isEmpty_iff] at h
        have hlen : 1 ≤ p.length := List.length_pos.mpr hp
        simp only [repAllGo, h, if_true]
        congr 1
        exact ih _ _ _ (by simp only [List.length_drop, List.length_cons]; omega)
          (by simp only [List.length_drop, List.length_cons]; omega)
          (by simp only [List.length_drop, List.length_cons]; omega)
      · simp only [repAllGo, h, Bool.false_eq_true, if_false]
        congr 1
        exact ih _ _ _ (by omega) (by omega) (by omega)

theorem repAll_skip (p r : Str) (c : Char) (cs : Str)
    (h : (!p.isEmpty && p.isPrefixOf (c :: cs)) = false) :
    repAll p r (c :: cs) = c :: repAll p r cs := by
  show repAllGo (c :: cs).length p r (c :: cs) = _
  simp only [List.length_cons, repAllGo, h, Bool.false_eq_true, if_false]
  rfl

theorem repAll_match (p r s : Str) (hp : p ≠ []) (hpre : p.isPrefixOf s = true) :
    repAll p r s = r ++ repAll p r (s.drop p.length) := by
  cases s with
  | nil =>
    cases p with
    | nil => exact absurd rfl hp
    | cons a b => simp [List.isPrefixOf] at hpre
  | cons c cs =>
    have hnp : (!p.isEmpty) = true := by simp [List.isEmpty_iff, hp]
    show repAllGo (c :: cs).length p r (c :: cs) = _
    simp only [List.length_cons, repAllGo, hnp, hpre, Bool.and_self, if_true]
    congr 1
    have h1 : 1 ≤ p.length := List.length_pos.mpr hp
    exact repAllGo_fuel p r (cs.length + 1) _ _ _
      (by simp only [List.length_drop, List.length_cons]; omega)
      (by simp only [List.length_drop, List.length_cons]; omega)
      (by simp only [List.length_drop]; omega)

theorem ciRepAllGo_nil (f : Nat) (p r : Str) : ciRepAllGo f p r [] = [] := by
  cases f <;> rfl

theorem ciRepAllGo_fuel (p r : Str) :
    ∀ N f g s, List.length s ≤ N → List.length s ≤ f → List.length s ≤ g →
      ciRepAllGo f p r s = ciRepAllGo g p r s := by
  intro N
  induction N with
  | zero =>
    intro f g s hN _ _
    have : s = [] := List.length_eq_zero.mp (Nat.le_zero.mp hN)
    subst this
    rw [ciRepAllGo_nil, ciRepAllGo_nil]
  | succ N ih =>
    intro f g s hN hf hg
    cases s with
    | nil => rw [ciRepAllGo_nil, ciRepAllGo_nil]
    | cons c cs =>
      simp only [List.length_cons] at hN hf hg
      obtain ⟨f', rfl⟩ : ∃ f', f = f' + 1 := ⟨f - 1, by omega⟩
      obtain ⟨g', rfl⟩ : ∃ g', g = g' + 1 := ⟨g - 1, by omega⟩
      by_cases h : (!p.isEmpty && ciIsPfx p (c :: cs)) = true
      · have hp : p ≠ [] := by
          simp only [Bool.and_eq_true, Bool.not_eq_true'] at h
          exact fun hc => by simp [hc, List.isEmpty_iff] at h
        have hlen : 1 ≤ p.length := List.length_pos.mpr hp
        simp only [ciRepAllGo, h, if_true]
        congr 1
        exact ih _ _ _ (by simp only [List.length_drop, List.length_cons]; omega)
          (by simp only [List.length_drop, List.length_cons]; omega)
          (by simp only [List.length_drop, List.length_cons]; omega)
      · simp only [ciRepAllGo, h, Bool.false_eq_true, if_false]
        congr 1
        exact ih _ _ _ (by omega) (by omega) (by omega)

theorem ciRepAll_skip (p r : Str) (c : Char) (cs : Str)
    (h : (!p.isEmpty && ciIsPfx p (c :: cs)) = false) :
    ciRepAll p r (c :: cs) = c :: ciRepAll p r cs := by
  show ciRepAllGo (c :: cs).length p r (c :: cs) = _
  simp only [List.length_cons, ciRepAllGo, h, Bool.false_eq_true, if_false]
  rfl

theorem ciRepAll_match (p r s : Str) (hp : p ≠ []) (hpre : ciIsPfx p s = true) :
    ciRepAll p r s = apply_case (s.take p.length) r ++ ciRepAll p r (s.drop p.length) := by
  cases s with
  | nil =>
    cases p with
    | nil => exact absurd rfl hp
    | cons a b => simp [ciIsPfx] at hpre
  | cons c cs =>
    have hnp : (!p.isEmpty) = true := by simp [List.isEmpty_iff, hp]
    show ciRepAllGo (c :: cs).length p r (c :: cs) = _
    simp only [List.length_cons, ciRepAllGo, hnp, hpre, Bool.and_self, if_true]
    congr 1
    have h1 : 1 ≤ p.length := List.length_pos.mpr hp
    exact ciRepAllGo_fuel p r (cs.length + 1) _ _ _
      (by simp only [List.length_drop, List.length_cons]; omega)
      (by simp only [List.length_drop, List.length_cons]; omega)
      (by simp only [List.length_drop]; omega)

theorem dropWhile_len_le (p : Char → Bool) (l : List Char) :
    (l.dropWhile p).length ≤ l.length := by
  induction l with
  | nil => simp
  | cons c r ih =>
    rw [List.dropWhile_cons]
    by_cases h : p c = true
    · simp only [h, if_true]
      exact Nat.le_succ_of_le ih
    · simp [h]

theorem wordSubGo_nil (f : Nat) (wm : List (Str × Str)) : wordSubGo f wm [] = [] := by
  cases f <;> rfl

theorem wordSubGo_fuel (wm : List (Str × Str)) :
    ∀ N f g s, List.length s ≤ N → List.length s ≤ f → List.length s ≤ g →
      wordSubGo f wm s = wordSubGo g wm s := by
  intro N
  induction N with
  | zero =>
    intro f g s hN _ _
    have : s = [] := List.length_eq_zero.mp (Nat.le_zero.mp hN)
    subst this
    rw [wordSubGo_nil, wordSubGo_nil]
  | succ N ih =>
    intro f g s hN hf hg
    cases s with
    | nil => rw [wordSubGo_nil, wordSubGo_nil]
    | cons c cs =>
      simp only [List.length_cons] at hN hf hg
      obtain ⟨f', rfl⟩ : ∃ f', f = f' + 1 := ⟨f - 1, by omega⟩
      obtain ⟨g', rfl⟩ : ∃ g', g = g' + 1 := ⟨g - 1, by omega⟩
      by_cases h : isWordC c = true
      · simp only [wordSubGo, h, if_true]
        congr 1
        have hdrop : ((c :: cs).dropWhile isWordC).length ≤ cs.length := by
          rw [List.dropWhile_cons, if_pos h]
          exact dropWhile_len_le _ _
        exact ih _ _ _ (by omega) (by omega) (by omega)
      · simp only [wordSubGo, h, Bool.false_eq_true, if_false]
        congr 1
        exact ih _ _ _ (by omega) (by omega) (by omega)

theorem wordSub_skip (wm : List (Str × Str)) (c : Char) (cs : Str)
    (h : isWordC c = false) : wordSub wm (c :: cs) = c :: wordSub wm cs := by
  show wordSubGo (c :: cs).length wm (c :: cs) = _
  simp only [List.length_cons, wordSubGo, h, Bool.false_eq_true, if_false]
  rfl

theorem wordSub_word (wm : List (Str × Str)) (c : Char) (cs : Str)
    (h : isWordC c = true) :
    wordSub wm (c :: cs) =
      (match lookupW wm (pyLower ((c :: cs).takeWhile isWordC)) with
       | some tr => apply_case ((c :: cs).takeWhile isWordC) tr
       | none => (c :: cs).takeWhile isWordC) ++
      wordSub wm ((c :: cs).dropWhile isWordC) := by
  show wordSubGo (c :: cs).length wm (c :: cs) = _
  simp only [List.length_cons, wordSubGo, h, if_true]
  congr 1
  have hdrop : ((c :: cs).dropWhile isWordC).length ≤ cs.length := by
    rw [List.dropWhile_cons, if_pos h]
    exact dropWhile_len_le _ _
  exact wordSubGo_fuel wm (cs.length + 1) _ _ _ (by omega) (by omega) (by omega)

theorem collapseGo_nil (f : Nat) : collapseGo f [] = [] := by
  cases f <;> rfl

theorem collapseGo_fuel :
    ∀ N f g s, List.length s ≤ N → List.length s ≤ f → List.length s ≤ g →
      collapseGo f s = collapseGo g s := by
  intro N
  induction N with
  | zero =>
    intro f g s hN _ _
    have : s = [] := List.length_eq_zero.mp (Nat.le_zero.mp hN)
    subst this
    rw [collapseGo_nil, collapseGo_nil]
  | succ N ih =>
    intro f g s hN hf hg
    cases s with
    | nil => rw [collapseGo_nil, collapseGo_nil]
    | cons c cs =>
      simp only [List.length_cons] at hN hf hg
      obtain ⟨f', rfl⟩ : ∃ f', f = f' + 1 := ⟨f - 1, by omega⟩
      obtain ⟨g', rfl⟩ : ∃ g', g = g' + 1 := ⟨g - 1, by omega⟩
      by_cases h : isWsC c = true
      · simp only [collapseGo, h, if_true]
        congr 1
        have hdrop : ((c :: cs).dropWhile isWsC).length ≤ cs.length := by
          rw [List.dropWhile_cons, if_pos h]
          exact dropWhile_len_le _ _
        exact ih _ _ _ (by omega) (by omega) (by omega)
      · simp only [collapseGo, h, Bool.false_eq_true, if_false]
        congr 1
        exact ih _ _ _ (by omega) (by omega) (by omega)

theorem collapseWs_skip (c : Char) (cs : Str) (h : isWsC c = false) :
    collapseWs (c :: cs) = c :: collapseWs cs := by
  show collapseGo (c :: cs).length (c :: cs) = _
  simp only [List.length_cons, collapseGo, h, Bool.false_eq_true, if_false]
  rfl

theorem collapseWs_run (c : Char) (cs : Str) (h : isWsC c = true) :
    collapseWs (c :: cs) =
      (if ((c :: cs).takeWhile isWsC).contains (Char.ofNat 10)
       then (c :: cs).takeWhile isWsC else [' ']) ++
      collapseWs ((c :: cs).dropWhile isWsC) := by
  show collapseGo (c :: cs).length (c :: cs) = _
  simp only [List.length_cons, collapseGo, h, if_true]
  congr 1
  have hdrop : ((c :: cs).dropWhile isWsC).length ≤ cs.length := by
    rw [List.dropWhile_cons, if_pos h]
    exact dropWhile_len_le _ _
  exact collapseGo_fuel (cs.length + 1) _ _ _ (by omega) (by omega) (by omega)

theorem phAlt1_eq {s t r : Str} (h : phAlt1 s = some (t, r)) :
    s = t ++ r ∧ t ≠ [] := by
  unfold phAlt1 at h
  split at h
  next rr =>
    split at h
    next r2 heq =>
      by_cases hw : (rr.takeWhile (fun c => c ≠ ')')).isEmpty = true
      · rw [if_pos hw] at h
        exact absurd h (by simp)
      · rw [if_neg hw] at h
        have hinj := Option.some_inj.mp h
        have ht : '%' :: '(' :: (rr.takeWhile (fun c => c ≠ ')') ++ [')', 's']) = t :=
          congrArg Prod.fst hinj
        have hr : r2 = r := congrArg Prod.snd hinj
        constructor
        · rw [← ht, ← hr]
          have hsplit := List.takeWhile_append_dropWhile (fun c => decide (c ≠ ')')) rr
          rw [heq] at hsplit
          conv_lhs => rw [← hsplit]
          simp
        · rw [← ht]
          simp
    next heq => exact absurd h (by simp)
  next => exact absurd h (by simp)

theorem phAlt2_eq {s t r : Str} (h : phAlt2 s = some (t, r)) :
    s = t ++ r ∧ t ≠ [] := by
  unfold phAlt2 at h
  split at h
  next rr =>
    have hinj := Option.some_inj.mp h
    have ht : ['%', 's'] = t := congrArg Prod.fst hinj
    have hr : rr = r := congrArg Prod.snd hinj
    rw [← ht, ← hr]
    exact ⟨rfl, by simp⟩
  next => exact absurd h (by simp)

theorem phAlt3_eq {s t r : Str} (h : phAlt3 s = some (t, r)) :
    s = t ++ r ∧ t ≠ [] := by
  unfold phAlt3 at h
  split at h
  next c rr =>
    by_cases hc : c = lbr
    · rw [if_pos hc] at h
      split at h
      next c2 r2 heq =>
        by_cases hb : (c2 = rbr && !(rr.takeWhile (fun x => x ≠ rbr)).isEmpty) = true
        · rw [if_pos hb] at h
          have hinj := Option.some_inj.mp h
          have ht : lbr :: (rr.takeWhile (fun x => x ≠ rbr) ++ [rbr]) = t :=
            congrArg Prod.fst hinj
          have hr : r2 = r := congrArg Prod.snd hinj
          have hc2 : c2 = rbr := by
            simp only [Bool.and_eq_true, decide_eq_true_eq] at hb
            exact hb.1
          constructor
          · rw [← ht, ← hr, hc]
            have hsplit := List.takeWhile_append_dropWhile (fun x => decide (x ≠ rbr)) rr
            rw [heq, hc2] at hsplit
            conv_lhs => rw [← hsplit]
            simp
          · rw [← ht]
            simp
        · rw [if_neg hb] at h
          exact absurd h (by simp)
      next heq => exact absurd h (by simp)
    · rw [if_neg hc] at h
      exact absurd h (by simp)
  next => exact absurd h (by simp)

theorem phAlt4_eq {s t r : Str} (h : phAlt4 s = some (t, r)) :
    s = t ++ r ∧ t ≠ [] := by
  unfold phAlt4 at h
  split at h
  next c rr =>
    by_cases hc : c = lbr
    · rw [if_pos hc] at h
      split at h
      next c2 r2 heq =>
        by_cases hb : (c2 = rbr && !(rr.takeWhile (fun x => x ≠ rbr)).isEmpty) = true
        · rw [if_pos hb] at h
          have hinj := Option.some_inj.mp h
          have ht : '$' :: lbr :: (rr.takeWhile (fun x => x ≠ rbr) ++ [rbr]) = t :=
            congrArg Prod.fst hinj
          have hr : r2 = r := congrArg Prod.snd hinj
          have hc2 : c2 = rbr := by
            simp only [Bool.and_eq_true, decide_eq_true_eq] at hb
            exact hb.1
          constructor
          · rw [← ht, ← hr, hc]
            have hsplit := List.takeWhile_append_dropWhile (fun x => decide (x ≠ rbr)) rr
            rw [heq, hc2] at hsplit
            conv_lhs => rw [← hsplit]
            simp
          · rw [← ht]
            simp
        · rw [if_neg hb] at h
          exact absurd h (by simp)
      next heq => exact absurd h (by simp)
    · rw [if_neg hc] at h
      exact absurd h (by simp)
  next => exact absurd h (by simp)

theorem phAlt5_eq {s t r : Str} (h : phAlt5 s = some (t, r)) :
    s = t ++ r ∧ t ≠ [] := by
  unfold phAlt5 at h
  split at h
  next c1 c2 rr =>
    by_cases hc : (c1 = lbr && c2 = lbr) = true
    · rw [if_pos hc] at h
      split at h
      next c3 c4 r2 heq =>
        by_cases hb : (c3 = rbr && c4 = rbr &&
            !(rr.takeWhile (fun x => x ≠ rbr)).isEmpty) = true
        · rw [if_pos hb] at h
          have hinj := Option.some_inj.mp h
          have ht : lbr :: lbr :: (rr.takeWhile (fun x => x ≠ rbr) ++ [rbr, rbr]) = t :=
            congrArg Prod.fst hinj
          have hr : r2 = r := congrArg Prod.snd hinj
          have hc1 : c1 = lbr ∧ c2 = lbr := by
            simp only [Bool.and_eq_true, decide_eq_true_eq] at hc
            exact hc
          have hc34 : c3 = rbr ∧ c4 = rbr := by
            simp only [Bool.and_eq_true, decide_eq_true_eq] at hb
            exact ⟨hb.1.1, hb.1.2⟩
          constructor
          · rw [← ht, ← hr, hc1.1, hc1.2]
            have hsplit := List.takeWhile_append_dropWhile (fun x => decide (x ≠ rbr)) rr
            rw [heq, hc34.1, hc34.2] at hsplit
            conv_lhs => rw [← hsplit]
            simp
          · rw [← ht]
            simp
        · rw [if_neg hb] at h
          exact absurd h (by simp)
      next heq => exact absurd h (by simp)
    · rw [if_neg hc] at h
      exact absurd h (by simp)
  next => exact absurd h (by simp)

theorem phMatchAt_eq {s t r : Str} (h : phMatchAt s = some (t, r)) :
    s = t ++ r ∧ t ≠ [] := by
  unfold phMatchAt at h
  rcases h1 : phAlt1 s with _ | p1
  · rw [h1] at h
    simp only [Option.none_orElse] at h
    rcases h2 : phAlt2 s with _ | p2
    · rw [h2] at h
      simp only [Option.none_orElse] at h
      rcases h3 : phAlt3 s with _ | p3
      · rw [h3] at h
        simp only [Option.none_orElse] at h
        rcases h4 : phAlt4 s with _ | p4
        · rw [h4] at h
          simp only [Option.none_orElse] at h
          exact phAlt5_eq h
        · rw [h4] at h
          simp only [Option.some_orElse] at h
          exact phAlt4_eq (h4.trans h)
      · rw [h3] at h
        simp only [Option.some_orElse] at h
        exact phAlt3_eq (h3.trans h)
    · rw [h2] at h
      simp only [Option.some_orElse] at h
      exact phAlt2_eq (h2.trans h)
  · rw [h1] at h
    simp only [Option.some_orElse] at h
    exact phAlt1_eq (h1.trans h)

theorem phAlt1_none_safe {c : Char} (s : Str) (hc : c ≠ '%') :
    phAlt1 (c :: s) = none := by
  unfold phAlt1
  split
  next r heq =>
    exact absurd (List.head_eq_of_cons_eq heq) hc
  next => rfl

theorem phAlt2_none_safe {c : Char} (s : Str) (hc : c ≠ '%') :
    phAlt2 (c :: s) = none := by
  unfold phAlt2
  split
  next r heq =>
    exact absurd (List.head_eq_of_cons_eq heq) hc
  next => rfl

theorem phAlt3_none_safe {c : Char} (s : Str) (hc : c ≠ lbr) :
    phAlt3 (c :: s) = none := by
  unfold phAlt3
  dsimp only
  rw [if_neg hc]

theorem phAlt4_none_safe {c : Char} (s : Str) (hc : c ≠ '$') :
    phAlt4 (c :: s) = none := by
  unfold phAlt4
  split
  next c2 r heq =>
    exact absurd (List.head_eq_of_cons_eq heq) hc
  next => rfl

theorem phAlt5_none_safe {c : Char} (s : Str) (hc : c ≠ lbr) :
    phAlt5 (c :: s) = none := by
  unfold phAlt5
  split
  next c1 c2 r heq =>
    have h1 : c1 = c := (List.head_eq_of_cons_eq heq).symm
    rw [if_neg]
    simp only [Bool.and_eq_true, decide_eq_true_eq, not_and]
    intro hl
    exact absurd (h1 ▸ hl) hc
  next => rfl

theorem phMatchAt_none_safe {c : Char} (s : Str) (hc : litSafeB c = true) :
    phMatchAt (c :: s) = none := by
  have h1 : c ≠ '%' := by
    intro h
    subst h
    simp [litSafeB] at hc
  have h2 : c ≠ lbr := by
    intro h
    subst h
    simp [litSafeB] at hc
  have h3 : c ≠ '$' := by
    intro h
    subst h
    simp [litSafeB] at hc
  unfold phMatchAt
  rw [phAlt1_none_safe s h1, phAlt2_none_safe s h1, phAlt3_none_safe s h2,
    phAlt4_none_safe s h3, phAlt5_none_safe s h2]
  rfl

theorem takeWhile_token_body {w : Str} (b : Char) (y : Str) (hb : b ∈ w → False) :
    (w ++ b :: y).takeWhile (fun c => decide (c ≠ b)) = w := by
  rw [takeWhile_append_all _ _ (fun c hc => by
    simp only [decide_eq_true_eq]
    exact fun he => hb (he ▸ hc))]
  simp [List.takeWhile_cons]

theorem dropWhile_token_body {w : Str} (b : Char) (y : Str) (hb : b ∈ w → False) :
    (w ++ b :: y).dropWhile (fun c => decide (c ≠ b)) = b :: y := by
  rw [dropWhile_append_all _ _ (fun c hc => by
    simp only [decide_eq_true_eq]
    exact fun he => hb (he ▸ hc))]
  simp [List.dropWhile_cons]

theorem isEmpty_false_of_ne {w : Str} (h : w ≠ []) : w.isEmpty = false := by
  cases w with
  | nil => exact absurd rfl h
  | cons a t => rfl

theorem phMatchAt_tok {t : Str} (ht : PHTok t) (s : Str) :
    phMatchAt (t ++ s) = some (t, s) := by
  cases ht with
  | pcts =>
    have ha1 : phAlt1 ('%' :: 's' :: s) = none := by
      unfold phAlt1
      split
      next r heq =>
        injection heq with hh htl
        injection htl with hh2 _
        exact absurd hh2 (by decide)
      next => rfl
    show phMatchAt ('%' :: 's' :: s) = some (['%', 's'], s)
    unfold phMatchAt
    rw [ha1]
    rfl
  | named w h1 h2 =>
    have heq : ('%' :: '(' :: (w ++ [')', 's'])) ++ s =
        '%' :: '(' :: (w ++ ')' :: 's' :: s) := by simp
    rw [heq]
    have ha1 : phAlt1 ('%' :: '(' :: (w ++ ')' :: 's' :: s)) =
        some ('%' :: '(' :: (w ++ [')', 's']), s) := by
      unfold phAlt1
      split
      next r hr =>
        injection hr with hh htl
        injection htl with hh2 hr2
        subst hr2
        rw [takeWhile_token_body ')' ('s' :: s) h2,
          dropWhile_token_body ')' ('s' :: s) h2]
        split
        next r2 hr3 =>
          injection hr3 with hh3 htl3
          injection htl3 with hh4 hr4
          subst hr4
          rw [if_neg (by simp [isEmpty_false_of_ne h1])]
        next x hx hne => exact (hne _ rfl).elim
      next x hx => exact (hx _ rfl).elim
    unfold phMatchAt
    rw [ha1]
    rfl
  | brace w h1 h2 =>
    have heq : (lbr :: (w ++ [rbr])) ++ s = lbr :: (w ++ rbr :: s) := by simp
    rw [heq]
    have ha3 : phAlt3 (lbr :: (w ++ rbr :: s)) = some (lbr :: (w ++ [rbr]), s) := by
      unfold phAlt3
      dsimp only
      rw [if_pos rfl]
      rw [takeWhile_token_body rbr s h2, dropWhile_token_body rbr s h2]
      dsimp only
      rw [if_pos (by simp [isEmpty_false_of_ne h1])]
    unfold phMatchAt
    rw [phAlt1_none_safe _ (by decide), phAlt2_none_safe _ (by decide), ha3]
    rfl
  | dollar w h1 h2 =>
    have heq : ('$' :: lbr :: (w ++ [rbr])) ++ s = '$' :: lbr :: (w ++ rbr :: s) := by
      simp
    rw [heq]
    have ha3 : phAlt3 ('$' :: lbr :: (w ++ rbr :: s)) = none :=
      phAlt3_none_safe _ (by decide)
    have ha4 : phAlt4 ('$' :: lbr :: (w ++ rbr :: s)) =
        some ('$' :: lbr :: (w ++ [rbr]), s) := by
      unfold phAlt4
      split
      next c r hr =>
        injection hr with hh htl
        injection htl with hh2 hr2
        subst hh2
        subst hr2
        rw [if_pos rfl]
        rw [takeWhile_token_body rbr s h2, dropWhile_token_body rbr s h2]
        dsimp only
        rw [if_pos (by simp [isEmpty_false_of_ne h1])]
      next x hx => exact (hx _ _ rfl).elim
    unfold phMatchAt
    rw [phAlt1_none_safe _ (by decide), phAlt2_none_safe _ (by decide), ha3, ha4]
    rfl

-- Basic algebra of the segment alternations.

theorem joinSegs_cons_char (c : Char) (l0 : Str) (segs : List (Str × Str)) :
    joinSegs (c :: l0) segs = c :: joinSegs l0 segs := by
  cases segs with
  | nil => rfl
  | cons p r => cases p; simp [joinSegs]

theorem joinSegs_append_lit (a b : Str) (segs : List (Str × Str)) :
    joinSegs (a ++ b) segs = a ++ joinSegs b segs := by
  cases segs with
  | nil => rfl
  | cons p r => cases p; simp [joinSegs]

theorem joinMk_cons_char (n : Nat) (c : Char) (l0 : Str) (ls : List Str) :
    joinMk n (c :: l0) ls = c :: joinMk n l0 ls := by
  cases ls with
  | nil => rfl
  | cons l r => simp [joinMk]

theorem joinMk_append_lit (n : Nat) (a b : Str) (ls : List Str) :
    joinMk n (a ++ b) ls = a ++ joinMk n b ls := by
  cases ls with
  | nil => rfl
  | cons l r => simp [joinMk]

theorem PHTok_ne_nil {t : Str} (h : PHTok t) : t ≠ [] := by
  cases h <;> simp

theorem phScanGo_nil (f n : Nat) : phScanGo f [] n = ([], []) := by
  cases f <;> rfl

-- Decimal digits and the marker spelling.

/-- Decimal digit character test (used to reason about marker indices). -/
def isDigitC (c : Char) : Bool :=
  c == '0' || c == '1' || c == '2' || c == '3' || c == '4' ||
    c == '5' || c == '6' || c == '7' || c == '8' || c == '9'

theorem digit_cases {d : Char} (h : isDigitC d = true) :
    d = '0' ∨ d = '1' ∨ d = '2' ∨ d = '3' ∨ d = '4' ∨
      d = '5' ∨ d = '6' ∨ d = '7' ∨ d = '8' ∨ d = '9' := by
  have h2 := h
  simp only [isDigitC, Bool.or_eq_true, beq_iff_eq] at h2
  tauto

theorem decDig_digit {k : Nat} (h : k < 10) : isDigitC (decDig k) = true := by
  interval_cases k <;> decide

theorem digit_ne_us {d : Char} (h : isDigitC d = true) : ('_' == d) = false := by
  rcases digit_cases h with rfl|rfl|rfl|rfl|rfl|rfl|rfl|rfl|rfl|rfl <;> decide

theorem loC_digit {d : Char} (h : isDigitC d = true) : loC d = d := by
  rcases digit_cases h with rfl|rfl|rfl|rfl|rfl|rfl|rfl|rfl|rfl|rfl <;> decide

theorem isWordC_digit {d : Char} (h : isDigitC d = true) : isWordC d = false := by
  rcases digit_cases h with rfl|rfl|rfl|rfl|rfl|rfl|rfl|rfl|rfl|rfl <;> decide

theorem isWsC_digit {d : Char} (h : isDigitC d = true) : isWsC d = false := by
  rcases digit_cases h with rfl|rfl|rfl|rfl|rfl|rfl|rfl|rfl|rfl|rfl <;> decide

theorem beq_digit_false {d x : Char} (hd : isDigitC d = true)
    (hx : isDigitC x = false) : (x == d) = false := by
  cases h : x == d with
  | false => rfl
  | true =>
    have : x = d := by simpa using h
    subst this
    rw [hd] at hx
    cases hx

theorem natDecGo_acc :
    ∀ n f g acc, n < f → n < g → natDecGo f n acc = natDecGo g n [] ++ acc := by
  intro n
  induction n using Nat.strong_induction_on with
  | _ n ih =>
    intro f g acc hf hg
    obtain ⟨f', rfl⟩ : ∃ f', f = f' + 1 := ⟨f - 1, by omega⟩
    obtain ⟨g', rfl⟩ : ∃ g', g = g' + 1 := ⟨g - 1, by omega⟩
    by_cases h : n < 10
    · simp [natDecGo, h]
    · have hdiv : n / 10 < n := by omega
      simp only [natDecGo, h, if_false]
      rw [ih (n / 10) hdiv f' (n / 10 + 1) _ (by omega) (by omega)]
      rw [ih (n / 10) hdiv g' (n / 10 + 1) _ (by omega) (by omega)]
      simp

theorem natDec_lt10 {n : Nat} (h : n < 10) : natDec n = [decDig n] := by
  simp [natDec, natDecGo, h, Nat.mod_eq_of_lt h]

theorem natDec_step {n : Nat} (h : 10 ≤ n) :
    natDec n = natDec (n / 10) ++ [decDig (n % 10)] := by
  have h1 : ¬ n < 10 := by omega
  show natDecGo (n + 1) n [] = _
  simp only [natDecGo, h1, if_false]
  exact natDecGo_acc (n / 10) n (n / 10 + 1) [decDig (n % 10)] (by omega) (by omega)

theorem natDec_ne_nil (n : Nat) : natDec n ≠ [] := by
  by_cases h : n < 10
  · rw [natDec_lt10 h]; simp
  · rw [natDec_step (by omega)]; simp

theorem natDec_digits : ∀ n, ∀ c ∈ natDec n, isDigitC c = true := by
  intro n
  induction n using Nat.strong_induction_on with
  | _ n ih =>
    intro c hc
    by_cases h : n < 10
    · rw [natDec_lt10 h] at hc
      simp only [List.mem_singleton] at hc
      subst hc
      exact decDig_digit h
    · rw [natDec_step (by omega)] at hc
      rcases List.mem_append.mp hc with h1 | h1
      · exact ih (n / 10) (by omega) c h1
      · simp only [List.mem_singleton] at h1
        subst h1
        exact decDig_digit (Nat.mod_lt _ (by norm_num))

/-- Value of a decimal digit string (used to invert `natDec`). -/
def decVal (s : Str) : Nat := s.foldl (fun a c => 10 * a + (c.toNat - 48)) 0

theorem decDig_toNat {k : Nat} (h : k < 10) : (decDig k).toNat = 48 + k := by
  interval_cases k <;> decide

theorem decVal_append_digit (s : Str) (c : Char) :
    decVal (s ++ [c]) = 10 * decVal s + (c.toNat - 48) := by
  simp [decVal, List.foldl_append]

theorem decVal_natDec : ∀ n, decVal (natDec n) = n := by
  intro n
  induction n using Nat.strong_induction_on with
  | _ n ih =>
    by_cases h : n < 10
    · rw [natDec_lt10 h]
      simp [decVal, decDig_toNat h]
    · rw [natDec_step (by omega), decVal_append_digit, ih (n / 10) (by omega),
        decDig_toNat (Nat.mod_lt _ (by norm_num))]
      omega

theorem natDec_inj {n m : Nat} (h : natDec n = natDec m) : n = m := by
  have h2 := congrArg decVal h
  simpa [decVal_natDec] using h2

theorem marker_eq (k : Nat) :
    marker k = '_' :: '_' :: 'P' :: 'H' :: '_' :: (natDec k ++ ['_', '_']) := by
  show (str "__PH_" ++ natDec k) ++ str "__" = _
  rw [show str "__PH_" = ['_', '_', 'P', 'H', '_'] from rfl,
    show str "__" = ['_', '_'] from rfl]
  simp

theorem marker_ne_nil (k : Nat) : marker k ≠ [] := by
  rw [marker_eq]; simp

-- Prefix-test helpers (case-sensitive and case-insensitive).

theorem isPfx_cons (a b : Char) (as bs : Str) :
    (a :: as).isPrefixOf (b :: bs) = ((a == b) && as.isPrefixOf bs) := rfl

theorem isPfx_cons_nil (a : Char) (as : Str) : (a :: as).isPrefixOf [] = false := rfl

theorem isPfx_self_append (p x : Str) : p.isPrefixOf (p ++ x) = true := by
  induction p with
  | nil => simp [List.isPrefixOf]
  | cons a as ih => simp [isPfx_cons, ih]

theorem ciIsPfx_cons (a b : Char) (as bs : Str) :
    ciIsPfx (a :: as) (b :: bs) = (ciEq a b && ciIsPfx as bs) := rfl

theorem ciIsPfx_length {p : Str} :
    ∀ {s : Str}, ciIsPfx p s = true → p.length ≤ s.length := by
  induction p with
  | nil => intro s _; simp
  | cons a as ih =>
    intro s h
    cases s with
    | nil => exact absurd h (by simp [ciIsPfx])
    | cons b bs =>
      rw [ciIsPfx_cons, Bool.and_eq_true] at h
      simpa using ih h.2

theorem ciIsPfx_append_stop {p : Str} {c : Char} (hp : ∀ a ∈ p, ciEq a c = false) :
    ∀ L X, ciIsPfx p (L ++ c :: X) = ciIsPfx p L := by
  induction p with
  | nil => intro L X; rfl
  | cons a as ih =>
    intro L X
    cases L with
    | nil =>
      simp only [List.nil_append]
      rw [ciIsPfx_cons, hp a (by simp)]
      simp [ciIsPfx]
    | cons b bs =>
      rw [List.cons_append, ciIsPfx_cons, ciIsPfx_cons,
        ih (fun x hx => hp x (List.mem_cons_of_mem a hx))]

theorem ciEq_us (a : Char) : ciEq a '_' = (loC a == '_') := by
  rw [ciEq, show loC '_' = '_' from by decide]

theorem ciEq_digit {a d : Char} (hd : isDigitC d = true)
    (ha : isDigitC (loC a) = false) : ciEq a d = false := by
  rw [ciEq, loC_digit hd]
  exact beq_digit_false hd ha

theorem suffix_append_cases {s2 : Str} :
    ∀ A B, s2 <:+ A ++ B → s2 <:+ B ∨ ∃ a2, a2 <:+ A ∧ a2 ≠ [] ∧ s2 = a2 ++ B := by
  intro A
  induction A with
  | nil => intro B h; exact Or.inl (by simpa using h)
  | cons a A' ih =>
    intro B h
    rw [List.cons_append] at h
    rcases List.suffix_cons_iff.mp h with h1 | h1
    · exact Or.inr ⟨a :: A', List.suffix_refl _, by simp, by simpa using h1⟩
    · rcases ih B h1 with h2 | ⟨a2, ha2, hne, rfl⟩
      · exact Or.inl h2
      · exact Or.inr ⟨a2, ha2.trans (List.suffix_cons a A'), hne, rfl⟩

/-- Underscore-freeness of a string (the property literals and tokens need so
that the markers remain unambiguous during restoration). -/
def UFree (l : Str) : Prop := ∀ c ∈ l, (c == '_') = false

theorem litSafe_us {c : Char} (h : litSafeB c = true) : (c == '_') = false := by
  simp only [litSafeB, Bool.and_eq_true, Bool.not_eq_true'] at h
  exact h.2

theorem UFree_of_litOk {l : Str} (h : LitOk l) : UFree l :=
  fun c hc => litSafe_us (h c hc)

theorem UFree_of_ne {t : Str} (h : ∀ c ∈ t, c ≠ '_') : UFree t := by
  intro c hc
  simpa using h c hc

theorem UFree_append {a b : Str} (ha : UFree a) (hb : UFree b) : UFree (a ++ b) := by
  intro c hc
  rcases List.mem_append.mp hc with h | h
  · exact ha c h
  · exact hb c h

theorem phScanGo_step_none (f n : Nat) (c : Char) (r : Str)
    (h : phMatchAt (c :: r) = none) :
    phScanGo (f + 1) (c :: r) n =
      (c :: (phScanGo f r n).1, (phScanGo f r n).2) := by
  simp [phScanGo, h]

theorem phScanGo_step_some (f n : Nat) (s tok rest : Str)
    (h : phMatchAt s = some (tok, rest)) :
    phScanGo (f + 1) s n =
      (marker n ++ (phScanGo f rest (n + 1)).1, tok :: (phScanGo f rest (n + 1)).2) := by
  simp [phScanGo, h]

theorem phScanGo_join :
    ∀ N f n l0 segs, (joinSegs l0 segs).length ≤ N → (joinSegs l0 segs).length ≤ f →
      LitOk l0 → (∀ p ∈ segs, PHTok p.1 ∧ LitOk p.2) →
      phScanGo f (joinSegs l0 segs) n =
        (joinMk n l0 (segs.map Prod.snd), segs.map Prod.fst) := by
  intro N
  induction N with
  | zero =>
    intro f n l0 segs hN hf hl0 hsegs
    cases segs with
    | nil =>
      have hl : l0 = [] := List.length_eq_zero.mp (Nat.le_zero.mp hN)
      subst hl
      simp [joinSegs, joinMk, phScanGo_nil]
    | cons p r =>
      obtain ⟨t, l⟩ := p
      have ht : PHTok t := (hsegs (t, l) (by simp)).1
      have hlen : (joinSegs l0 ((t, l) :: r)).length = 0 := Nat.le_zero.mp hN
      simp only [joinSegs, List.length_append] at hlen
      exact absurd (List.length_eq_zero.mp (by omega)) (PHTok_ne_nil ht)
  | succ N ih =>
    intro f n l0 segs hN hf hl0 hsegs
    cases l0 with
    | cons c l0' =>
      rw [joinSegs_cons_char] at hN hf ⊢
      obtain ⟨f', rfl⟩ : ∃ f', f = f' + 1 := ⟨f - 1, by simp at hf; omega⟩
      rw [phScanGo_step_none f' n c _ (phMatchAt_none_safe _ (hl0 c (by simp)))]
      rw [ih f' n l0' segs (by simp at hN; omega) (by simp at hf; omega)
        (fun d hd => hl0 d (by simp [hd])) hsegs]
      simp [joinMk_cons_char]
    | nil =>
      cases segs with
      | nil => simp [joinSegs, joinMk, phScanGo_nil]
      | cons p r =>
        obtain ⟨t, l⟩ := p
        obtain ⟨ht, hl⟩ := hsegs (t, l) (by simp)
        have hJ : joinSegs [] ((t, l) :: r) = t ++ joinSegs l r := by simp [joinSegs]
        rw [hJ] at hN hf ⊢
        have htlen : 1 ≤ t.length := List.length_pos.mpr (PHTok_ne_nil ht)
        obtain ⟨f', rfl⟩ : ∃ f', f = f' + 1 := ⟨f - 1, by simp at hf; omega⟩
        rw [phScanGo_step_some f' n _ t (joinSegs l r) (phMatchAt_tok ht _)]
        rw [ih f' (n + 1) l r (by simp at hN; omega) (by simp at hf; omega) hl
          (fun q hq => hsegs q (by simp [hq]))]
        simp [joinMk]

theorem phStash_join (l0 : Str) (segs : List (Str × Str)) (hl0 : LitOk l0)
    (hsegs : ∀ p ∈ segs, PHTok p.1 ∧ LitOk p.2) :
    phStash (joinSegs l0 segs) =
      (joinMk 0 l0 (segs.map Prod.snd), segs.map Prod.fst) :=
  phScanGo_join _ _ 0 l0 segs le_rfl le_rfl hl0 hsegs

theorem phTokens_join (l0 : Str) (segs : List (Str × Str)) (hl0 : LitOk l0)
    (hsegs : ∀ p ∈ segs, PHTok p.1 ∧ LitOk p.2) :
    phTokens (joinSegs l0 segs) = segs.map Prod.fst := by
  rw [phTokens, phStash_join l0 segs hl0 hsegs]

-- The phrase-substitution pass respects the marker alternation.

theorem ciRepAll_append_break {p r : Str} (hp : p ≠ [])
    (hus : ∀ a ∈ p, ciEq a '_' = false) :
    ∀ N l X X', l.length ≤ N → X = '_' :: X' →
      ciRepAll p r (l ++ X) = ciRepAll p r l ++ ciRepAll p r X := by
  have hp1 : 1 ≤ p.length := List.length_pos.mpr hp
  intro N
  induction N with
  | zero =>
    intro l X X' hN hX
    have hl : l = [] := List.length_eq_zero.mp (Nat.le_zero.mp hN)
    subst hl
    simp [ciRepAll, ciRepAllGo]
  | succ N ih =>
    intro l X X' hN hX
    cases l with
    | nil => simp [ciRepAll, ciRepAllGo]
    | cons c l' =>
      subst hX
      have hEq : ciIsPfx p ((c :: l') ++ '_' :: X') = ciIsPfx p (c :: l') :=
        ciIsPfx_append_stop hus (c :: l') X'
      by_cases hm : ciIsPfx p (c :: l') = true
      · have hm2 : ciIsPfx p ((c :: l') ++ '_' :: X') = true := by rw [hEq]; exact hm
        rw [ciRepAll_match p r _ hp hm2, ciRepAll_match p r _ hp hm]
        have hplen : p.length ≤ (c :: l').length := ciIsPfx_length hm
        rw [List.take_append_eq_append_take, List.drop_append_eq_append_drop]
        rw [Nat.sub_eq_zero_of_le hplen]
        simp only [List.take_zero, List.append_nil, List.drop_zero]
        rw [ih ((c :: l').drop p.length) _ X'
          (by simp only [List.length_drop, List.length_cons] at hN ⊢; omega) rfl]
        simp [List.append_assoc]
      · have hm2 : ciIsPfx p ((c :: l') ++ '_' :: X') = false := by
          rw [hEq]; simpa using hm
        rw [List.cons_append]
        rw [ciRepAll_skip p r c _ (by
          rw [show c :: (l' ++ '_' :: X') = (c :: l') ++ '_' :: X' from rfl, hm2]
          simp)]
        rw [ciRepAll_skip p r c l' (by simp [show ciIsPfx p (c :: l') = false from by simpa using hm])]
        rw [ih l' _ X' (by simp only [List.length_cons] at hN; omega) rfl]
        simp

theorem ciRepAll_chunk (p r : Str) :
    ∀ C Y, (∀ s2, s2 <:+ C → s2 ≠ [] → ciIsPfx p (s2 ++ Y) = false) →
      ciRepAll p r (C ++ Y) = C ++ ciRepAll p r Y := by
  intro C
  induction C with
  | nil => intro Y h; simp
  | cons c C' ih =>
    intro Y h
    have h0 : ciIsPfx p ((c :: C') ++ Y) = false := h (c :: C') (List.suffix_refl _) (by simp)
    rw [List.cons_append]
    rw [ciRepAll_skip p r c _ (by
      rw [show c :: (C' ++ Y) = (c :: C') ++ Y from rfl, h0]
      simp)]
    rw [ih Y (fun s2 hs hne => h s2 (hs.trans (List.suffix_cons c C')) hne)]
    simp

theorem phrase_marker_suffix {p : Str} (h3 : 3 ≤ p.length)
    (hus : ∀ a ∈ p, ciEq a '_' = false)
    (hdg : ∀ a ∈ p, isDigitC (loC a) = false) (m : Nat) :
    ∀ s2, s2 <:+ marker m → s2 ≠ [] → ∀ Y, ciIsPfx p (s2 ++ Y) = false := by
  obtain ⟨a, b, cc, p3, rfl⟩ : ∃ a b cc p3, p = a :: b :: cc :: p3 := by
    cases p with
    | nil => simp at h3
    | cons a p1 =>
      cases p1 with
      | nil => simp at h3
      | cons b p2 =>
        cases p2 with
        | nil => simp at h3
        | cons cc p3 => exact ⟨a, b, cc, p3, rfl⟩
  have haU : ciEq a '_' = false := hus a (by simp)
  have hbU : ciEq b '_' = false := hus b (by simp)
  have hcU : ciEq cc '_' = false := hus cc (by simp)
  have haD : isDigitC (loC a) = false := hdg a (by simp)
  intro s2 hs hne Y
  rw [marker_eq] at hs
  rcases List.suffix_cons_iff.mp hs with rfl | hs
  · simp [ciIsPfx_cons, haU]
  rcases List.suffix_cons_iff.mp hs with rfl | hs
  · simp [ciIsPfx_cons, haU]
  rcases List.suffix_cons_iff.mp hs with rfl | hs
  · simp [ciIsPfx_cons, hcU]
  rcases List.suffix_cons_iff.mp hs with rfl | hs
  · simp [ciIsPfx_cons, hbU]
  rcases List.suffix_cons_iff.mp hs with rfl | hs
  · simp [ciIsPfx_cons, haU]
  rcases suffix_append_cases _ _ hs with hs2 | ⟨d2, hd2, hdne, rfl⟩
  · rcases List.suffix_cons_iff.mp hs2 with rfl | hs2
    · simp [ciIsPfx_cons, haU]
    rcases List.suffix_cons_iff.mp hs2 with rfl | hs2
    · simp [ciIsPfx_cons, haU]
    · exact absurd (List.suffix_nil.mp hs2) hne
  · obtain ⟨d, z, rfl⟩ : ∃ d z, d2 = d :: z := by
      cases d2 with
      | nil => exact absurd rfl hdne
      | cons d z => exact ⟨d, z, rfl⟩
    have hdd : isDigitC d = true :=
      natDec_digits m d (hd2.subset (by simp))
    simp [ciIsPfx_cons, ciEq_digit hdd haD]

theorem ciRepAll_marker (p r : Str) (h3 : 3 ≤ p.length)
    (hus : ∀ a ∈ p, ciEq a '_' = false)
    (hdg : ∀ a ∈ p, isDigitC (loC a) = false) (m : Nat) (Y : Str) :
    ciRepAll p r (marker m ++ Y) = marker m ++ ciRepAll p r Y :=
  ciRepAll_chunk p r (marker m) Y
    (fun s2 hs hne => phrase_marker_suffix h3 hus hdg m s2 hs hne Y)

theorem ciRepAll_join (p r : Str) (h3 : 3 ≤ p.length)
    (hus : ∀ a ∈ p, ciEq a '_' = false)
    (hdg : ∀ a ∈ p, isDigitC (loC a) = false) :
    ∀ ls n l, ciRepAll p r (joinMk n l ls) =
      joinMk n (ciRepAll p r l) (ls.map (ciRepAll p r)) := by
  have hp : p ≠ [] := by
    intro h
    rw [h] at h3
    simp at h3
  intro ls
  induction ls with
  | nil => intro n l; rfl
  | cons l1 ls' ih =>
    intro n l
    show ciRepAll p r (l ++ marker n ++ joinMk (n + 1) l1 ls') = _
    rw [List.append_assoc]
    rw [ciRepAll_append_break hp hus l.length l _
      (('_' :: 'P' :: 'H' :: '_' :: (natDec n ++ ['_', '_'])) ++ joinMk (n + 1) l1 ls')
      le_rfl (by rw [marker_eq]; rfl)]
    rw [ciRepAll_marker p r h3 hus hdg n _]
    rw [ih (n + 1) l1]
    show _ = (ciRepAll p r l ++ marker n ++ joinMk (n + 1) (ciRepAll p r l1) (ls'.map (ciRepAll p r)))
    simp [List.append_assoc]

theorem foldRules_join :
    ∀ rules : List (Str × Str),
      (∀ pr ∈ rules, 3 ≤ pr.1.length ∧ (∀ a ∈ pr.1, ciEq a '_' = false) ∧
        (∀ a ∈ pr.1, isDigitC (loC a) = false)) →
      ∀ n l ls, rules.foldl (fun w pr => ciRepAll pr.1 pr.2 w) (joinMk n l ls) =
        joinMk n (rules.foldl (fun w pr => ciRepAll pr.1 pr.2 w) l)
          (ls.map (fun x => rules.foldl (fun w pr => ciRepAll pr.1 pr.2 w) x)) := by
  intro rules
  induction rules with
  | nil => intro _ n l ls; simp
  | cons pr rs ih =>
    intro hr n l ls
    obtain ⟨h3, hus, hdg⟩ := hr pr (by simp)
    simp only [List.foldl_cons]
    rw [ciRepAll_join pr.1 pr.2 h3 hus hdg ls n l]
    rw [ih (fun q hq => hr q (by simp [hq])) n (ciRepAll pr.1 pr.2 l)
      (ls.map (ciRepAll pr.1 pr.2))]
    simp [List.map_map]
    rfl

-- The word-substitution pass respects the marker alternation.

theorem wordSub_append_break (wm : List (Str × Str)) :
    ∀ N l X c X', l.length ≤ N → X = c :: X' → isWordC c = false →
      wordSub wm (l ++ X) = wordSub wm l ++ wordSub wm X := by
  intro N
  induction N with
  | zero =>
    intro l X c X' hN hX hc
    have hl : l = [] := List.length_eq_zero.mp (Nat.le_zero.mp hN)
    subst hl
    simp [wordSub, wordSubGo]
  | succ N ih =>
    intro l X c X' hN hX hc
    cases l with
    | nil => simp [wordSub, wordSubGo]
    | cons a l' =>
      subst hX
      by_cases hw : isWordC a = true
      · rw [List.cons_append]
        rw [wordSub_word wm a (l' ++ c :: X') hw]
        rw [wordSub_word wm a l' hw]
        have ht : (a :: (l' ++ c :: X')).takeWhile isWordC =
            (a :: l').takeWhile isWordC := by
          rw [show a :: (l' ++ c :: X') = (a :: l') ++ c :: X' from rfl]
          exact takeWhile_append_stop _ _ (Or.inr ⟨c, X', rfl, hc⟩)
        have hd : (a :: (l' ++ c :: X')).dropWhile isWordC =
            (a :: l').dropWhile isWordC ++ c :: X' := by
          rw [show a :: (l' ++ c :: X') = (a :: l') ++ c :: X' from rfl]
          exact dropWhile_append_stop _ _ (Or.inr ⟨c, X', rfl, hc⟩)
        rw [ht, hd]
        rw [ih ((a :: l').dropWhile isWordC) _ c X' (by
          rw [List.dropWhile_cons, if_pos hw]
          have h1 := dropWhile_len_le isWordC l'
          simp only [List.length_cons] at hN
          omega) rfl hc]
        simp [List.append_assoc]
      · have hw2 : isWordC a = false := by simpa using hw
        rw [List.cons_append]
        rw [wordSub_skip wm a _ hw2, wordSub_skip wm a l' hw2]
        rw [ih l' _ c X' (by simp only [List.length_cons] at hN; omega) rfl hc]
        simp

theorem wordSub_digits (wm : List (Str × Str)) :
    ∀ ds Y, (∀ d ∈ ds, isDigitC d = true) →
      wordSub wm (ds ++ Y) = ds ++ wordSub wm Y := by
  intro ds
  induction ds with
  | nil => intro Y _; simp
  | cons d ds' ih =>
    intro Y hd
    rw [List.cons_append, wordSub_skip wm d _ (isWordC_digit (hd d (by simp)))]
    rw [ih Y (fun x hx => hd x (by simp [hx]))]
    simp

theorem wordSub_marker (wm : List (Str × Str))
    (hph : lookupW wm ['p', 'h'] = none) (m : Nat) (Y : Str) :
    wordSub wm (marker m ++ Y) = marker m ++ wordSub wm Y := by
  rw [marker_eq]
  have hA : ('_' :: '_' :: 'P' :: 'H' :: '_' :: (natDec m ++ ['_', '_'])) ++ Y =
      '_' :: '_' :: 'P' :: 'H' :: '_' :: (natDec m ++ '_' :: '_' :: Y) := by simp
  rw [hA]
  rw [wordSub_skip wm '_' _ (by decide)]
  rw [wordSub_skip wm '_' _ (by decide)]
  rw [wordSub_word wm 'P' _ (by decide)]
  have ht : ('H' :: '_' :: (natDec m ++ '_' :: '_' :: Y)).takeWhile isWordC = ['H'] := by
    simp [List.takeWhile_cons, show isWordC 'H' = true from by decide,
      show isWordC '_' = false from by decide]
  have ht2 : ('P' :: 'H' :: '_' :: (natDec m ++ '_' :: '_' :: Y)).takeWhile isWordC =
      ['P', 'H'] := by
    simp [List.takeWhile_cons, show isWordC 'P' = true from by decide,
      show isWordC 'H' = true from by decide, show isWordC '_' = false from by decide]
  have hdp : ('P' :: 'H' :: '_' :: (natDec m ++ '_' :: '_' :: Y)).dropWhile isWordC =
      '_' :: (natDec m ++ '_' :: '_' :: Y) := by
    simp [List.dropWhile_cons, show isWordC 'P' = true from by decide,
      show isWordC 'H' = true from by decide, show isWordC '_' = false from by decide]
  rw [ht2, hdp]
  have hlow : pyLower ['P', 'H'] = ['p', 'h'] := by decide
  rw [hlow, hph]
  rw [wordSub_skip wm '_' _ (by decide)]
  rw [wordSub_digits wm (natDec m) ('_' :: '_' :: Y) (natDec_digits m)]
  rw [wordSub_skip wm '_' _ (by decide)]
  rw [wordSub_skip wm '_' _ (by decide)]
  simp

theorem wordSub_join (wm : List (Str × Str))
    (hph : lookupW wm ['p', 'h'] = none) :
    ∀ ls n l, wordSub wm (joinMk n l ls) =
      joinMk n (wordSub wm l) (ls.map (wordSub wm)) := by
  intro ls
  induction ls with
  | nil => intro n l; rfl
  | cons l1 ls' ih =>
    intro n l
    show wordSub wm (l ++ marker n ++ joinMk (n + 1) l1 ls') = _
    rw [List.append_assoc]
    rw [wordSub_append_break wm l.length l _ '_'
      (('_' :: 'P' :: 'H' :: '_' :: (natDec n ++ ['_', '_'])) ++ joinMk (n + 1) l1 ls')
      le_rfl (by rw [marker_eq]; rfl) (by decide)]
    rw [wordSub_marker wm hph n _]
    rw [ih (n + 1) l1]
    show _ = wordSub wm l ++ marker n ++
      joinMk (n + 1) (wordSub wm l1) (ls'.map (wordSub wm))
    simp [List.append_assoc]

-- Placeholder restoration: markers are located unambiguously.

theorem us_beq_false {c : Char} (h : (c == '_') = false) : ('_' == c) = false := by
  simp only [beq_eq_false_iff_ne] at h ⊢
  exact fun he => h he.symm

theorem digit_beq_us {d : Char} (h : isDigitC d = true) : (d == '_') = false := by
  rcases digit_cases h with rfl|rfl|rfl|rfl|rfl|rfl|rfl|rfl|rfl|rfl <;> decide

theorem repAll_chunk (p t : Str) :
    ∀ C Y, (∀ s2, s2 <:+ C → s2 ≠ [] → p.isPrefixOf (s2 ++ Y) = false) →
      repAll p t (C ++ Y) = C ++ repAll p t Y := by
  intro C
  induction C with
  | nil => intro Y h; simp
  | cons c C' ih =>
    intro Y h
    have h0 : p.isPrefixOf ((c :: C') ++ Y) = false := h (c :: C') (List.suffix_refl _) (by simp)
    rw [List.cons_append]
    rw [repAll_skip p t c _ (by
      rw [show c :: (C' ++ Y) = (c :: C') ++ Y from rfl, h0]
      simp)]
    rw [ih Y (fun s2 hs hne => h s2 (hs.trans (List.suffix_cons c C')) hne)]
    simp

theorem repAll_id (p t : Str) :
    ∀ S, (∀ s2, s2 <:+ S → s2 ≠ [] → p.isPrefixOf s2 = false) → repAll p t S = S := by
  intro S
  induction S with
  | nil => intro _; rfl
  | cons c S' ih =>
    intro h
    rw [repAll_skip p t c S' (by simp [h (c :: S') (List.suffix_refl _) (by simp)])]
    rw [ih (fun s2 hs hne => h s2 (hs.trans (List.suffix_cons c S')) hne)]

theorem notpfx_PHdigit {d : Char} (hd : isDigitC d = true) (w : Str) :
    ∀ ls m l, UFree l →
      (('P' :: 'H' :: '_' :: d :: w).isPrefixOf (joinMk m l ls)) = false := by
  intro ls m l hl
  cases l with
  | nil =>
    cases ls with
    | nil => rfl
    | cons l1 ls1 =>
      show ('P' :: 'H' :: '_' :: d :: w).isPrefixOf
        ([] ++ marker m ++ joinMk (m + 1) l1 ls1) = false
      rw [marker_eq]
      simp [isPfx_cons]
  | cons c1 l' =>
    rw [joinMk_cons_char, isPfx_cons]
    by_cases h1 : ('P' == c1) = true
    · have hc1 : 'P' = c1 := by simpa using h1
      subst hc1
      cases l' with
      | nil =>
        cases ls with
        | nil => simp [joinMk, isPfx_cons]
        | cons l1 ls1 =>
          show (('P' == 'P') &&
            ('H' :: '_' :: d :: w).isPrefixOf (joinMk m [] (l1 :: ls1))) = false
          show (('P' == 'P') && ('H' :: '_' :: d :: w).isPrefixOf
            ([] ++ marker m ++ joinMk (m + 1) l1 ls1)) = false
          rw [marker_eq]
          simp [isPfx_cons]
      | cons c2 l'' =>
        rw [joinMk_cons_char, isPfx_cons]
        by_cases h2 : ('H' == c2) = true
        · have hc2 : 'H' = c2 := by simpa using h2
          subst hc2
          cases l'' with
          | nil =>
            cases ls with
            | nil => simp [joinMk, isPfx_cons]
            | cons l1 ls1 =>
              show (('P' == 'P') && (('H' == 'H') && ('_' :: d :: w).isPrefixOf
                ([] ++ marker m ++ joinMk (m + 1) l1 ls1))) = false
              rw [marker_eq]
              simp [isPfx_cons, digit_beq_us hd]
          | cons c3 l3 =>
            rw [joinMk_cons_char, isPfx_cons]
            simp [us_beq_false (hl c3 (by simp))]
        · simp [show ('H' == c2) = false from by simpa using h2]
    · simp [show ('P' == c1) = false from by simpa using h1]

theorem notpfx_UP (w : Str) :
    ∀ ls m l, UFree l → (('_' :: 'P' :: w).isPrefixOf (joinMk m l ls)) = false := by
  intro ls m l hl
  cases l with
  | nil =>
    cases ls with
    | nil => rfl
    | cons l1 ls1 =>
      show ('_' :: 'P' :: w).isPrefixOf ([] ++ marker m ++ joinMk (m + 1) l1 ls1) = false
      rw [marker_eq]
      simp [isPfx_cons]
  | cons c1 l' =>
    rw [joinMk_cons_char, isPfx_cons]
    simp [us_beq_false (hl c1 (by simp))]

theorem digits_pfx_eq :
    ∀ a b u Y, (∀ c ∈ a, isDigitC c = true) → (∀ c ∈ b, isDigitC c = true) →
      ((a ++ '_' :: u).isPrefixOf (b ++ '_' :: '_' :: Y)) = true → a = b := by
  intro a
  induction a with
  | nil =>
    intro b u Y _ hb h
    cases b with
    | nil => rfl
    | cons d b' =>
      rw [List.nil_append, List.cons_append, isPfx_cons] at h
      simp [digit_ne_us (hb d (by simp))] at h
  | cons d a' ih =>
    intro b u Y ha hb h
    cases b with
    | nil =>
      rw [List.cons_append, List.nil_append, isPfx_cons] at h
      simp [digit_beq_us (ha d (by simp))] at h
    | cons e b' =>
      rw [List.cons_append, List.cons_append, isPfx_cons, Bool.and_eq_true] at h
      have hde : d = e := by simpa using h.1
      subst hde
      rw [ih b' u Y (fun c hc => ha c (by simp [hc])) (fun c hc => hb c (by simp [hc])) h.2]

theorem restore_marker_suffix {i m : Nat} (him : i ≠ m) :
    ∀ b2, b2 <:+ marker m → b2 ≠ [] →
      ∀ l1 ls1, UFree l1 →
        ((marker i).isPrefixOf (b2 ++ joinMk (m + 1) l1 ls1)) = false := by
  intro b2 hs hne l1 ls1 hl1
  obtain ⟨di, zi, hdi⟩ : ∃ di zi, natDec i = di :: zi := by
    cases h : natDec i with
    | nil => exact absurd h (natDec_ne_nil i)
    | cons d z => exact ⟨d, z, rfl⟩
  obtain ⟨dm, zm, hdm⟩ : ∃ dm zm, natDec m = dm :: zm := by
    cases h : natDec m with
    | nil => exact absurd h (natDec_ne_nil m)
    | cons d z => exact ⟨d, z, rfl⟩
  have hdi_d : isDigitC di = true := natDec_digits i di (by rw [hdi]; simp)
  have hdm_d : isDigitC dm = true := natDec_digits m dm (by rw [hdm]; simp)
  rw [marker_eq] at hs
  rcases List.suffix_cons_iff.mp hs with rfl | hs
  · rw [marker_eq]
    have hA : ('_' :: '_' :: 'P' :: 'H' :: '_' :: (natDec m ++ ['_', '_'])) ++
        joinMk (m + 1) l1 ls1 =
        '_' :: '_' :: 'P' :: 'H' :: '_' ::
          (natDec m ++ '_' :: '_' :: joinMk (m + 1) l1 ls1) := by simp
    rw [hA]
    simp only [isPfx_cons]
    by_cases hend : ((natDec i ++ ['_', '_']).isPrefixOf
        (natDec m ++ '_' :: '_' :: joinMk (m + 1) l1 ls1)) = true
    · have : natDec i = natDec m :=
        digits_pfx_eq (natDec i) (natDec m) ['_'] (joinMk (m + 1) l1 ls1)
          (natDec_digits i) (natDec_digits m) hend
      exact absurd (natDec_inj this) him
    · have hend2 : ((natDec i ++ ['_', '_']).isPrefixOf
          (natDec m ++ '_' :: '_' :: joinMk (m + 1) l1 ls1)) = false := by
        simp only [Bool.not_eq_true] at hend
        exact hend
      simp [hend2]
  rcases List.suffix_cons_iff.mp hs with rfl | hs
  · rw [marker_eq]
    simp [isPfx_cons, List.cons_append,
      show (('_' : Char) == 'P') = false from by decide]
  rcases List.suffix_cons_iff.mp hs with rfl | hs
  · rw [marker_eq]
    simp [isPfx_cons, List.cons_append,
      show (('_' : Char) == 'P') = false from by decide]
  rcases List.suffix_cons_iff.mp hs with rfl | hs
  · rw [marker_eq]
    simp [isPfx_cons, List.cons_append,
      show (('_' : Char) == 'H') = false from by decide]
  rcases List.suffix_cons_iff.mp hs with rfl | hs
  · rw [marker_eq, hdm]
    simp [isPfx_cons, List.cons_append, digit_ne_us hdm_d]
  rcases suffix_append_cases _ _ hs with hs2 | ⟨d2, hd2, hdne, rfl⟩
  · rcases List.suffix_cons_iff.mp hs2 with rfl | hs2
    · rw [marker_eq]
      simp only [List.cons_append, List.nil_append, isPfx_cons]
      have hrest : (('P' :: 'H' :: '_' :: (natDec i ++ ['_', '_'])).isPrefixOf
          (joinMk (m + 1) l1 ls1)) = false := by
        rw [hdi]
        rw [show (di :: zi) ++ ['_', '_'] = di :: (zi ++ ['_', '_']) from rfl]
        exact notpfx_PHdigit hdi_d (zi ++ ['_', '_']) ls1 (m + 1) l1 hl1
      simp [hrest]
    rcases List.suffix_cons_iff.mp hs2 with rfl | hs2
    · rw [marker_eq]
      simp only [List.cons_append, List.nil_append, isPfx_cons]
      have hrest : (('_' :: 'P' :: ('H' :: '_' :: (natDec i ++ ['_', '_']))).isPrefixOf
          (joinMk (m + 1) l1 ls1)) = false :=
        notpfx_UP ('H' :: '_' :: (natDec i ++ ['_', '_'])) ls1 (m + 1) l1 hl1
      simp [hrest]
    · exact absurd (List.suffix_nil.mp hs2) hne
  · obtain ⟨d, z, rfl⟩ : ∃ d z, d2 = d :: z := by
      cases d2 with
      | nil => exact absurd rfl hdne
      | cons d z => exact ⟨d, z, rfl⟩
    have hdd : isDigitC d = true := natDec_digits m d (hd2.subset (by simp))
    rw [marker_eq]
    simp [isPfx_cons, List.cons_append, digit_ne_us hdd]

theorem marker_no_occur {i : Nat} :
    ∀ ls m l, i < m → UFree l → (∀ x ∈ ls, UFree x) →
      ∀ s2, s2 <:+ joinMk m l ls → s2 ≠ [] → ((marker i).isPrefixOf s2) = false := by
  intro ls
  induction ls with
  | nil =>
    intro m l _ hl _ s2 hs hne
    obtain ⟨c, z, rfl⟩ : ∃ c z, s2 = c :: z := by
      cases s2 with
      | nil => exact absurd rfl hne
      | cons c z => exact ⟨c, z, rfl⟩
    have hc : c ∈ l := hs.subset (by simp)
    rw [marker_eq, isPfx_cons]
    simp [us_beq_false (hl c hc)]
  | cons l1 ls1 ih =>
    intro m l him hl hls s2 hs hne
    have hJ : joinMk m l (l1 :: ls1) =
        l ++ (marker m ++ joinMk (m + 1) l1 ls1) := by
      show l ++ marker m ++ joinMk (m + 1) l1 ls1 = _
      simp [List.append_assoc]
    rw [hJ] at hs
    rcases suffix_append_cases _ _ hs with hs1 | ⟨a2, ha2, hane, rfl⟩
    · rcases suffix_append_cases _ _ hs1 with hs2 | ⟨b2, hb2, hbne, rfl⟩
      · exact ih (m + 1) l1 (by omega) (hls l1 (by simp))
          (fun x hx => hls x (by simp [hx])) s2 hs2 hne
      · exact restore_marker_suffix (by omega) b2 hb2 hbne l1 ls1 (hls l1 (by simp))
    · obtain ⟨c, z, rfl⟩ : ∃ c z, a2 = c :: z := by
        cases a2 with
        | nil => exact absurd rfl hane
        | cons c z => exact ⟨c, z, rfl⟩
      have hc : c ∈ l := ha2.subset (by simp)
      rw [List.cons_append, marker_eq, isPfx_cons]
      simp [us_beq_false (hl c hc)]

theorem repAll_restore_step (n : Nat) (t L l1 : Str) (ls1 : List Str)
    (hL : UFree L) (hl1 : UFree l1) (hls1 : ∀ x ∈ ls1, UFree x) :
    repAll (marker n) t (L ++ marker n ++ joinMk (n + 1) l1 ls1) =
      L ++ t ++ joinMk (n + 1) l1 ls1 := by
  rw [List.append_assoc]
  rw [repAll_chunk (marker n) t L _ (by
    intro s2 hs hne
    obtain ⟨c, z, rfl⟩ : ∃ c z, s2 = c :: z := by
      cases s2 with
      | nil => exact absurd rfl hne
      | cons c z => exact ⟨c, z, rfl⟩
    have hc : c ∈ L := hs.subset (by simp)
    rw [List.cons_append, marker_eq, isPfx_cons]
    simp [us_beq_false (hL c hc)])]
  rw [repAll_match (marker n) t _ (marker_ne_nil n) (isPfx_self_append _ _)]
  rw [List.drop_left]
  rw [repAll_id (marker n) t _ (marker_no_occur ls1 (n + 1) l1 (by omega) hl1 hls1)]
  simp [List.append_assoc]

theorem restore_join :
    ∀ toks Ls n L, toks.length = Ls.length → UFree L → (∀ x ∈ Ls, UFree x) →
      (∀ x ∈ toks, UFree x) →
      restoreGo n toks (joinMk n L Ls) = joinSegs L (toks.zip Ls) := by
  intro toks
  induction toks with
  | nil =>
    intro Ls n L hlen _ _ _
    have hl : Ls = [] := List.length_eq_zero.mp hlen.symm
    subst hl
    rfl
  | cons t ts ih =>
    intro Ls n L hlen hL hLs hts
    cases Ls with
    | nil => simp at hlen
    | cons l1 ls1 =>
      show restoreGo (n + 1) ts (repAll (marker n) t (joinMk n L (l1 :: ls1))) = _
      rw [show joinMk n L (l1 :: ls1) =
        L ++ marker n ++ joinMk (n + 1) l1 ls1 from rfl]
      rw [repAll_restore_step n t L l1 ls1 hL (hLs l1 (by simp))
        (fun x hx => hLs x (by simp [hx]))]
      rw [show L ++ t ++ joinMk (n + 1) l1 ls1 =
        joinMk (n + 1) (L ++ t ++ l1) ls1 from by
          rw [joinMk_append_lit (n + 1) (L ++ t) l1 ls1]]
      rw [ih ls1 (n + 1) (L ++ t ++ l1) (by simpa using hlen)
        (UFree_append (UFree_append hL (hts t (by simp))) (hLs l1 (by simp)))
        (fun x hx => hLs x (by simp [hx])) (fun x hx => hts x (by simp [hx]))]
      rw [show (t :: ts).zip (l1 :: ls1) = (t, l1) :: ts.zip ls1 from rfl]
      rw [show joinSegs L ((t, l1) :: ts.zip ls1) =
        L ++ t ++ joinSegs l1 (ts.zip ls1) from rfl]
      rw [joinSegs_append_lit (L ++ t) l1 (ts.zip ls1)]

-- Whitespace collapse and strip respect the token alternation.

theorem collapseWs_nonws_front :
    ∀ t Z, (∀ c ∈ t, isWsC c = false) → collapseWs (t ++ Z) = t ++ collapseWs Z := by
  intro t
  induction t with
  | nil => intro Z _; simp
  | cons c t' ih =>
    intro Z h
    rw [List.cons_append, collapseWs_skip c _ (h c (by simp))]
    rw [ih Z (fun x hx => h x (by simp [hx]))]
    simp

theorem collapseWs_append_break :
    ∀ N L X c X', L.length ≤ N → X = c :: X' → isWsC c = false →
      collapseWs (L ++ X) = collapseWs L ++ collapseWs X := by
  intro N
  induction N with
  | zero =>
    intro L X c X' hN hX hc
    have hl : L = [] := List.length_eq_zero.mp (Nat.le_zero.mp hN)
    subst hl
    simp [collapseWs, collapseGo]
  | succ N ih =>
    intro L X c X' hN hX hc
    cases L with
    | nil => simp [collapseWs, collapseGo]
    | cons a L' =>
      subst hX
      by_cases hw : isWsC a = true
      · rw [List.cons_append, collapseWs_run a _ hw, collapseWs_run a L' hw]
        have ht : (a :: (L' ++ c :: X')).takeWhile isWsC =
            (a :: L').takeWhile isWsC := by
          rw [show a :: (L' ++ c :: X') = (a :: L') ++ c :: X' from rfl]
          exact takeWhile_append_stop _ _ (Or.inr ⟨c, X', rfl, hc⟩)
        have hd : (a :: (L' ++ c :: X')).dropWhile isWsC =
            (a :: L').dropWhile isWsC ++ c :: X' := by
          rw [show a :: (L' ++ c :: X') = (a :: L') ++ c :: X' from rfl]
          exact dropWhile_append_stop _ _ (Or.inr ⟨c, X', rfl, hc⟩)
        rw [ht, hd]
        rw [ih ((a :: L').dropWhile isWsC) _ c X' (by
          rw [List.dropWhile_cons, if_pos hw]
          have h1 := dropWhile_len_le isWsC L'
          simp only [List.length_cons] at hN
          omega) rfl hc]
        simp [List.append_assoc]
      · have hw2 : isWsC a = false := by simpa using hw
        rw [List.cons_append, collapseWs_skip a _ hw2, collapseWs_skip a L' hw2]
        rw [ih L' _ c X' (by simp only [List.length_cons] at hN; omega) rfl hc]
        simp

theorem collapse_join :
    ∀ segs L, (∀ p : Str × Str, p ∈ segs → p.1 ≠ [] ∧ ∀ c ∈ p.1, isWsC c = false) →
      collapseWs (joinSegs L segs) =
        joinSegs (collapseWs L) (segs.map (fun p => (p.1, collapseWs p.2))) := by
  intro segs
  induction segs with
  | nil => intro L _; rfl
  | cons p r ih =>
    obtain ⟨t, l⟩ := p
    intro L h
    obtain ⟨htne, htw⟩ := h (t, l) (by simp)
    obtain ⟨c, t', rfl⟩ : ∃ c t', t = c :: t' := by
      cases t with
      | nil => exact absurd rfl htne
      | cons c t' => exact ⟨c, t', rfl⟩
    show collapseWs (L ++ (c :: t') ++ joinSegs l r) = _
    rw [List.append_assoc]
    rw [collapseWs_append_break L.length L _ c (t' ++ joinSegs l r) le_rfl
      (by simp) (htw c (by simp))]
    rw [show (c :: t') ++ joinSegs l r = (c :: t') ++ joinSegs l r from rfl]
    rw [collapseWs_nonws_front (c :: t') (joinSegs l r) htw]
    rw [ih l (fun q hq => h q (by simp [hq]))]
    show _ = collapseWs L ++ (c :: t') ++
      joinSegs (collapseWs l) (r.map (fun p => (p.1, collapseWs p.2)))
    simp [List.append_assoc]

/-- Right strip (the trailing half of Python `str.strip`). -/
def rstripL (l : Str) : Str := (l.reverse.dropWhile isWsC).reverse

/-- Right-strip the trailing literal of a segment list. -/
def stripLastLit : List (Str × Str) → List (Str × Str)
  | [] => []
  | [(t, l)] => [(t, rstripL l)]
  | p :: q :: r => p :: stripLastLit (q :: r)

theorem pyStrip_eq (s : Str) : pyStrip s = rstripL (s.dropWhile isWsC) := rfl

theorem dropWhile_append_of_ne (p : Char → Bool) :
    ∀ B C : Str, (∃ c ∈ B, p c = false) → (B ++ C).dropWhile p = B.dropWhile p ++ C := by
  intro B
  induction B with
  | nil =>
    intro C h
    rcases h with ⟨c, hc, _⟩
    simp at hc
  | cons b B' ih =>
    intro C h
    by_cases hb : p b = true
    · rw [List.cons_append, List.dropWhile_cons, if_pos hb,
        List.dropWhile_cons, if_pos hb]
      apply ih
      rcases h with ⟨c, hc, hpc⟩
      rcases List.mem_cons.mp hc with rfl | hc2
      · rw [hb] at hpc; cases hpc
      · exact ⟨c, hc2, hpc⟩
    · rw [List.cons_append, List.dropWhile_cons, if_neg hb,
        List.dropWhile_cons, if_neg hb]
      simp

theorem rstrip_append (A X : Str) (h : ∃ c ∈ X, isWsC c = false) :
    rstripL (A ++ X) = A ++ rstripL X := by
  unfold rstripL
  rw [List.reverse_append]
  rw [dropWhile_append_of_ne isWsC X.reverse A.reverse (by
    rcases h with ⟨c, hc, hpc⟩
    exact ⟨c, by simpa using hc, hpc⟩)]
  rw [List.reverse_append, List.reverse_reverse]

theorem rstrip_join :
    ∀ r t l L, t ≠ [] → (∀ c ∈ t, isWsC c = false) →
      (∀ p : Str × Str, p ∈ r → p.1 ≠ [] ∧ ∀ c ∈ p.1, isWsC c = false) →
      rstripL (joinSegs L ((t, l) :: r)) = joinSegs L (stripLastLit ((t, l) :: r)) := by
  intro r
  induction r with
  | nil =>
    intro t l L htne htw _
    obtain ⟨c, z, hcz⟩ : ∃ c z, t.reverse = c :: z := by
      cases h : t.reverse with
      | nil => exact absurd (by simpa using congrArg List.reverse h) htne
      | cons c z => exact ⟨c, z, rfl⟩
    have hc : c ∈ t := by
      rw [← List.mem_reverse, hcz]
      simp
    show rstripL (L ++ t ++ l) = joinSegs L [(t, rstripL l)]
    unfold rstripL
    rw [show (L ++ t ++ l).reverse = l.reverse ++ (t.reverse ++ L.reverse) from by simp]
    rw [dropWhile_append_stop l.reverse (t.reverse ++ L.reverse)
      (Or.inr ⟨c, z ++ L.reverse, by rw [hcz]; rfl, htw c hc⟩)]
    show (l.reverse.dropWhile isWsC ++ (t.reverse ++ L.reverse)).reverse = _
    rw [List.reverse_append, List.reverse_append, List.reverse_reverse,
      List.reverse_reverse]
    show L ++ t ++ (l.reverse.dropWhile isWsC).reverse = joinSegs L [(t, rstripL l)]
    rfl
  | cons q r' ih =>
    intro t l L htne htw hr
    obtain ⟨hq1, hq2⟩ := hr q (by simp)
    obtain ⟨c0, q', hq⟩ : ∃ c0 q', q.1 = c0 :: q' := by
      cases h : q.1 with
      | nil => exact absurd h hq1
      | cons c0 q' => exact ⟨c0, q', rfl⟩
    show rstripL (L ++ t ++ joinSegs l (q :: r')) = _
    rw [List.append_assoc, ← List.append_assoc]
    rw [rstrip_append (L ++ t) (joinSegs l (q :: r')) (by
      refine ⟨c0, ?_, hq2 c0 (by rw [hq]; simp)⟩
      obtain ⟨q1, q2⟩ := q
      show c0 ∈ l ++ q1 ++ joinSegs q2 r'
      simp only at hq
      rw [hq]
      simp)]
    rw [ih q.1 q.2 l hq1 hq2 (fun p hp => hr p (by simp [hp]))]
    show L ++ t ++ joinSegs l (stripLastLit (q :: r')) =
      joinSegs L ((t, l) :: stripLastLit (q :: r'))
    rfl

theorem strip_join (L t l : Str) (r : List (Str × Str)) (htne : t ≠ [])
    (htw : ∀ c ∈ t, isWsC c = false)
    (hr : ∀ p : Str × Str, p ∈ r → p.1 ≠ [] ∧ ∀ c ∈ p.1, isWsC c = false) :
    pyStrip (joinSegs L ((t, l) :: r)) =
      joinSegs (L.dropWhile isWsC) (stripLastLit ((t, l) :: r)) := by
  obtain ⟨c, t', rfl⟩ : ∃ c t', t = c :: t' := by
    cases t with
    | nil => exact absurd rfl htne
    | cons c t' => exact ⟨c, t', rfl⟩
  rw [pyStrip_eq]
  rw [show joinSegs L ((c :: t', l) :: r) = L ++ ((c :: t') ++ joinSegs l r) from by
    simp [joinSegs, List.append_assoc]]
  rw [dropWhile_append_stop L ((c :: t') ++ joinSegs l r)
    (Or.inr ⟨c, t' ++ joinSegs l r, by simp, htw c (by simp)⟩)]
  rw [show L.dropWhile isWsC ++ ((c :: t') ++ joinSegs l r) =
    joinSegs (L.dropWhile isWsC) ((c :: t', l) :: r) from by
      simp [joinSegs, List.append_assoc]]
  exact rstrip_join r (c :: t') l (L.dropWhile isWsC) (by simp) htw hr

theorem stripLastLit_fst :
    ∀ segs : List (Str × Str), (stripLastLit segs).map Prod.fst = segs.map Prod.fst := by
  intro segs
  induction segs with
  | nil => rfl
  | cons p r ih =>
    cases r with
    | nil => obtain ⟨t, l⟩ := p; rfl
    | cons q r' =>
      show (p :: stripLastLit (q :: r')).map Prod.fst = _
      simp only [List.map_cons]
      rw [ih]
      simp

theorem mem_rstripL {c : Char} {l : Str} (h : c ∈ rstripL l) : c ∈ l := by
  unfold rstripL at h
  rw [List.mem_reverse] at h
  have := (List.dropWhile_sublist (l := l.reverse) (p := isWsC)).subset h
  simpa using this

theorem stripLastLit_props {P : Str → Prop} {Q : Str → Prop}
    (hQ : ∀ l, Q l → Q (rstripL l)) :
    ∀ segs : List (Str × Str), (∀ p ∈ segs, P p.1 ∧ Q p.2) →
      ∀ p ∈ stripLastLit segs, P p.1 ∧ Q p.2 := by
  intro segs
  induction segs with
  | nil => intro _ p hp; simp [stripLastLit] at hp
  | cons a r ih =>
    intro h p hp
    cases r with
    | nil =>
      obtain ⟨t, l⟩ := a
      simp only [stripLastLit, List.mem_singleton] at hp
      subst hp
      obtain ⟨h1, h2⟩ := h (t, l) (by simp)
      exact ⟨h1, hQ l h2⟩
    | cons q r' =>
      rw [show stripLastLit (a :: q :: r') = a :: stripLastLit (q :: r') from rfl] at hp
      rcases List.mem_cons.mp hp with rfl | hp2
      · exact h p (by simp)
      · exact ih (fun x hx => h x (by simp [hx])) p hp2

-- Character closure of the substitution passes: every output character is an
-- input character or a case image of a replacement character.

theorem mem_pyTitleGo {c : Char} :
    ∀ t b, c ∈ pyTitleGo b t → ∃ d ∈ t, c = d ∨ c = upC d ∨ c = loC d := by
  intro t
  induction t with
  | nil => intro b h; simp [pyTitleGo] at h
  | cons x ts ih =>
    intro b h
    simp only [pyTitleGo] at h
    by_cases hc : isCasedC x = true
    · rw [if_pos hc] at h
      rcases List.mem_cons.mp h with h1 | h1
      · cases b with
        | true => exact ⟨x, by simp, Or.inr (Or.inr (by simpa using h1))⟩
        | false => exact ⟨x, by simp, Or.inr (Or.inl (by simpa [titleC] using h1))⟩
      · rcases ih true h1 with ⟨d, hd, hor⟩
        exact ⟨d, by simp [hd], hor⟩
    · rw [if_neg hc] at h
      rcases List.mem_cons.mp h with h1 | h1
      · exact ⟨x, by simp, Or.inl h1⟩
      · rcases ih false h1 with ⟨d, hd, hor⟩
        exact ⟨d, by simp [hd], hor⟩

theorem mem_apply_case {c : Char} (s t : Str) (h : c ∈ apply_case s t) :
    ∃ d ∈ t, c = d ∨ c = upC d ∨ c = loC d := by
  cases s with
  | nil => exact ⟨c, h, Or.inl rfl⟩
  | cons sc ss =>
    cases t with
    | nil => simp [apply_case] at h
    | cons tc ts =>
      simp only [apply_case] at h
      by_cases h1 : pyIsUpper (sc :: ss) = true
      · rw [if_pos h1] at h
        rcases List.mem_map.mp h with ⟨d, hd, hde⟩
        exact ⟨d, hd, Or.inr (Or.inl hde.symm)⟩
      · rw [if_neg h1] at h
        by_cases h2 : pyIsLower (sc :: ss) = true
        · rw [if_pos h2] at h
          rcases List.mem_map.mp h with ⟨d, hd, hde⟩
          exact ⟨d, hd, Or.inr (Or.inr hde.symm)⟩
        · rw [if_neg h2] at h
          by_cases h3 : pyIsTitle (sc :: ss) = true
          · rw [if_pos h3] at h
            exact mem_pyTitleGo (tc :: ts) false h
          · rw [if_neg h3] at h
            by_cases h4 : isUpC sc = true
            · rw [if_pos h4] at h
              rcases List.mem_cons.mp h with rfl | h5
              · exact ⟨tc, by simp, Or.inr (Or.inl rfl)⟩
              · exact ⟨c, by simp [h5], Or.inl rfl⟩
            · rw [if_neg h4] at h
              exact ⟨c, h, Or.inl rfl⟩

theorem mem_ciRepAll (p r : Str) :
    ∀ N s, s.length ≤ N → ∀ c ∈ ciRepAll p r s,
      c ∈ s ∨ ∃ d ∈ r, c = d ∨ c = upC d ∨ c = loC d := by
  intro N
  induction N with
  | zero =>
    intro s hN c hc
    have hl : s = [] := List.length_eq_zero.mp (Nat.le_zero.mp hN)
    subst hl
    simp [ciRepAll, ciRepAllGo] at hc
  | succ N ih =>
    intro s hN c hc
    cases s with
    | nil => simp [ciRepAll, ciRepAllGo] at hc
    | cons a s' =>
      by_cases hm : (!p.isEmpty && ciIsPfx p (a :: s')) = true
      · rw [Bool.and_eq_true] at hm
        obtain ⟨hne, hpfx⟩ := hm
        have hp : p ≠ [] := by
          intro h
          rw [h] at hne
          simp at hne
        have hp1 : 1 ≤ p.length := List.length_pos.mpr hp
        rw [ciRepAll_match p r (a :: s') hp hpfx] at hc
        rcases List.mem_append.mp hc with h1 | h1
        · rcases mem_apply_case _ _ h1 with ⟨d, hd, hor⟩
          exact Or.inr ⟨d, hd, hor⟩
        · rcases ih ((a :: s').drop p.length)
            (by simp only [List.length_drop, List.length_cons] at hN ⊢; omega) c h1 with h2 | h2
          · exact Or.inl ((List.drop_sublist _ _).subset h2)
          · exact Or.inr h2
      · have hm2 : (!p.isEmpty && ciIsPfx p (a :: s')) = false := by simpa using hm
        rw [ciRepAll_skip p r a s' hm2] at hc
        rcases List.mem_cons.mp hc with rfl | h1
        · exact Or.inl (by simp)
        · rcases ih s' (by simp only [List.length_cons] at hN; omega) c h1 with h2 | h2
          · exact Or.inl (by simp [h2])
          · exact Or.inr h2

theorem mem_foldRules :
    ∀ rules : List (Str × Str), ∀ s c,
      c ∈ rules.foldl (fun w pr => ciRepAll pr.1 pr.2 w) s →
      c ∈ s ∨ ∃ pr ∈ rules, ∃ d ∈ pr.2, c = d ∨ c = upC d ∨ c = loC d := by
  intro rules
  induction rules with
  | nil => intro s c hc; exact Or.inl hc
  | cons pr rs ih =>
    intro s c hc
    simp only [List.foldl_cons] at hc
    rcases ih (ciRepAll pr.1 pr.2 s) c hc with h1 | ⟨q, hq, hd⟩
    · rcases mem_ciRepAll pr.1 pr.2 s.length s le_rfl c h1 with h2 | ⟨d, hd, hor⟩
      · exact Or.inl h2
      · exact Or.inr ⟨pr, by simp, d, hd, hor⟩
    · exact Or.inr ⟨q, by simp [hq], hd⟩

theorem lookupW_mem :
    ∀ wm : List (Str × Str), ∀ k v, lookupW wm k = some v → ∃ kk, (kk, v) ∈ wm := by
  intro wm
  induction wm with
  | nil => intro k v h; simp [lookupW] at h
  | cons kv r ih =>
    intro k v h
    obtain ⟨kk, vv⟩ := kv
    simp only [lookupW] at h
    by_cases he : kk = k
    · rw [if_pos he] at h
      have hv : vv = v := by simpa using h
      subst hv
      exact ⟨kk, by simp⟩
    · rw [if_neg he] at h
      rcases ih k v h with ⟨kk2, hk2⟩
      exact ⟨kk2, by simp [hk2]⟩

theorem mem_wordSub (wm : List (Str × Str)) :
    ∀ N s, s.length ≤ N → ∀ c ∈ wordSub wm s,
      c ∈ s ∨ ∃ kv ∈ wm, ∃ d ∈ kv.2, c = d ∨ c = upC d ∨ c = loC d := by
  intro N
  induction N with
  | zero =>
    intro s hN c hc
    have hl : s = [] := List.length_eq_zero.mp (Nat.le_zero.mp hN)
    subst hl
    simp [wordSub, wordSubGo] at hc
  | succ N ih =>
    intro s hN c hc
    cases s with
    | nil => simp [wordSub, wordSubGo] at hc
    | cons a s' =>
      by_cases hw : isWordC a = true
      · rw [wordSub_word wm a s' hw] at hc
        have hdlen : ((a :: s').dropWhile isWordC).length ≤ N := by
          rw [List.dropWhile_cons, if_pos hw]
          have h1 := dropWhile_len_le isWordC s'
          simp only [List.length_cons] at hN
          omega
        rcases List.mem_append.mp hc with h1 | h1
        · cases hL : lookupW wm (pyLower ((a :: s').takeWhile isWordC)) with
          | none =>
            rw [hL] at h1
            simp only at h1
            exact Or.inl ((List.takeWhile_sublist _).subset h1)
          | some tr =>
            rw [hL] at h1
            simp only at h1
            rcases mem_apply_case _ _ h1 with ⟨d, hd, hor⟩
            rcases lookupW_mem wm _ tr hL with ⟨kk, hk⟩
            exact Or.inr ⟨(kk, tr), hk, d, hd, hor⟩
        · rcases ih ((a :: s').dropWhile isWordC) hdlen c h1 with h2 | h2
          · exact Or.inl ((List.dropWhile_sublist _).subset h2)
          · exact Or.inr h2
      · have hw2 : isWordC a = false := by simpa using hw
        rw [wordSub_skip wm a s' hw2] at hc
        rcases List.mem_cons.mp hc with rfl | h1
        · exact Or.inl (by simp)
        · rcases ih s' (by simp only [List.length_cons] at hN; omega) c h1 with h2 | h2
          · exact Or.inl (by simp [h2])
          · exact Or.inr h2

theorem mem_collapseWs :
    ∀ N s, s.length ≤ N → ∀ c ∈ collapseWs s, c ∈ s ∨ c = ' ' := by
  intro N
  induction N with
  | zero =>
    intro s hN c hc
    have hl : s = [] := List.length_eq_zero.mp (Nat.le_zero.mp hN)
    subst hl
    simp [collapseWs, collapseGo] at hc
  | succ N ih =>
    intro s hN c hc
    cases s with
    | nil => simp [collapseWs, collapseGo] at hc
    | cons a s' =>
      by_cases hw : isWsC a = true
      · rw [collapseWs_run a s' hw] at hc
        have hdlen : ((a :: s').dropWhile isWsC).length ≤ N := by
          rw [List.dropWhile_cons, if_pos hw]
          have h1 := dropWhile_len_le isWsC s'
          simp only [List.length_cons] at hN
          omega
        rcases List.mem_append.mp hc with h1 | h1
        · by_cases hnl : ((a :: s').takeWhile isWsC).contains (Char.ofNat 10) = true
          · rw [if_pos hnl] at h1
            exact Or.inl ((List.takeWhile_sublist _).subset h1)
          · rw [if_neg hnl] at h1
            simp only [List.mem_singleton] at h1
            exact Or.inr h1
        · rcases ih ((a :: s').dropWhile isWsC) hdlen c h1 with h2 | h2
          · exact Or.inl ((List.dropWhile_sublist _).subset h2)
          · exact Or.inr h2
      · have hw2 : isWsC a = false := by simpa using hw
        rw [collapseWs_skip a s' hw2] at hc
        rcases List.mem_cons.mp hc with rfl | h1
        · exact Or.inl (by simp)
        · rcases ih s' (by simp only [List.length_cons] at hN; omega) c h1 with h2 | h2
          · exact Or.inl (by simp [h2])
          · exact Or.inr h2

theorem offline_pipe_tokens
    (rules wm : List (Str × Str))
    (hrules : ∀ pr ∈ rules, 3 ≤ pr.1.length ∧ (∀ a ∈ pr.1, ciEq a '_' = false) ∧
      (∀ a ∈ pr.1, isDigitC (loC a) = false))
    (hrrep : ∀ pr ∈ rules, ∀ d ∈ pr.2,
      litSafeB d = true ∧ litSafeB (upC d) = true ∧ litSafeB (loC d) = true)
    (hph : lookupW wm ['p', 'h'] = none)
    (hwrep : ∀ kv ∈ wm, ∀ d ∈ kv.2,
      litSafeB d = true ∧ litSafeB (upC d) = true ∧ litSafeB (loC d) = true)
    (l0 : Str) (segs : List (Str × Str))
    (hl0 : LitOk l0) (hsegs : ∀ p ∈ segs, TokOk p.1 ∧ LitOk p.2) :
    phTokens (pyStrip (collapseWs (restoreGo 0 (segs.map Prod.fst)
      (wordSub wm (rules.foldl (fun w pr => ciRepAll pr.1 pr.2 w)
        (joinMk 0 l0 (segs.map Prod.snd))))))) = segs.map Prod.fst := by
  have hGsafe : ∀ x : Str, LitOk x →
      LitOk (wordSub wm (rules.foldl (fun w pr => ciRepAll pr.1 pr.2 w) x)) := by
    intro x hx c hc
    rcases mem_wordSub wm _ _ le_rfl c hc with h1 | ⟨kv, hkv, d, hd, hor⟩
    · rcases mem_foldRules rules x c h1 with h2 | ⟨pr, hpr, d, hd, hor⟩
      · exact hx c h2
      · obtain ⟨ha, hb, hc2⟩ := hrrep pr hpr d hd
        rcases hor with rfl | rfl | rfl
        · exact ha
        · exact hb
        · exact hc2
    · obtain ⟨ha, hb, hc2⟩ := hwrep kv hkv d hd
      rcases hor with rfl | rfl | rfl
      · exact ha
      · exact hb
      · exact hc2
  rw [foldRules_join rules hrules 0 l0 (segs.map Prod.snd)]
  rw [wordSub_join wm hph ((segs.map Prod.snd).map
    (fun x => rules.foldl (fun w pr => ciRepAll pr.1 pr.2 w) x)) 0 _]
  rw [List.map_map]
  have hlen : (segs.map Prod.fst).length = ((segs.map Prod.snd).map
      (wordSub wm ∘ fun x => rules.foldl (fun w pr => ciRepAll pr.1 pr.2 w) x)).length := by
    simp
  have htokU : ∀ x ∈ segs.map Prod.fst, UFree x := by
    intro x hx
    rcases List.mem_map.mp hx with ⟨q, hq, rfl⟩
    exact UFree_of_ne (hsegs q hq).1.2.2
  have hlitU : ∀ x ∈ (segs.map Prod.snd).map
      (wordSub wm ∘ fun x => rules.foldl (fun w pr => ciRepAll pr.1 pr.2 w) x), UFree x := by
    intro x hx
    rcases List.mem_map.mp hx with ⟨y, hy, rfl⟩
    rcases List.mem_map.mp hy with ⟨q, hq, rfl⟩
    exact UFree_of_litOk (hGsafe q.2 (hsegs q hq).2)
  rw [restore_join (segs.map Prod.fst) _ 0 _ hlen
    (UFree_of_litOk (hGsafe l0 hl0)) hlitU htokU]
  have hzip : ∀ p : Str × Str, p ∈ (segs.map Prod.fst).zip ((segs.map Prod.snd).map
      (wordSub wm ∘ fun x => rules.foldl (fun w pr => ciRepAll pr.1 pr.2 w) x)) →
      PHTok p.1 ∧ (∀ c ∈ p.1, isWsC c = false) ∧ LitOk p.2 := by
    intro p hp
    obtain ⟨t, l⟩ := p
    have hmem := List.of_mem_zip hp
    rcases List.mem_map.mp hmem.1 with ⟨q, hq, hfst⟩
    rcases List.mem_map.mp hmem.2 with ⟨y, hy, hsnd⟩
    rcases List.mem_map.mp hy with ⟨q2, hq2, rfl⟩
    constructor
    · rw [← hfst]; exact (hsegs q hq).1.1
    constructor
    · rw [← hfst]; exact (hsegs q hq).1.2.1
    · rw [← hsnd]; exact hGsafe q2.2 (hsegs q2 hq2).2
  rw [collapse_join _ _ (fun p hp =>
    ⟨PHTok_ne_nil (hzip p hp).1, (hzip p hp).2.1⟩)]
  cases hz : (segs.map Prod.fst).zip ((segs.map Prod.snd).map
      (wordSub wm ∘ fun x => rules.foldl (fun w pr => ciRepAll pr.1 pr.2 w) x)) with
  | nil =>
    have hse : segs = [] := by
      cases segs with
      | nil => rfl
      | cons q segs' => simp at hz
    subst hse
    simp only [List.map_nil, List.zip_nil_left] at hz ⊢
    have hL1 : LitOk (collapseWs (wordSub wm
        (rules.foldl (fun w pr => ciRepAll pr.1 pr.2 w) l0))) := by
      intro c hc
      rcases mem_collapseWs _ _ le_rfl c hc with h | rfl
      · exact hGsafe l0 hl0 c h
      · decide
    have hL2 : LitOk (pyStrip (collapseWs (wordSub wm
        (rules.foldl (fun w pr => ciRepAll pr.1 pr.2 w) l0)))) := by
      intro c hc
      rw [pyStrip_eq] at hc
      exact hL1 c ((List.dropWhile_sublist _).subset (mem_rstripL hc))
    have hfin := phTokens_join (pyStrip (collapseWs (wordSub wm
      (rules.foldl (fun w pr => ciRepAll pr.1 pr.2 w) l0)))) [] hL2
      (by intro p hp; simp at hp)
    simpa [joinSegs] using hfin
  | cons z zs =>
    obtain ⟨t0, l1⟩ := z
    have hz0 : ∀ p : Str × Str, p ∈ (t0, l1) :: zs →
        PHTok p.1 ∧ (∀ c ∈ p.1, isWsC c = false) ∧ LitOk p.2 := by
      intro p hp
      exact hzip p (by rw [hz]; exact hp)
    simp only [List.map_cons]
    rw [strip_join _ t0 (collapseWs l1) (zs.map (fun p => (p.1, collapseWs p.2)))
      (PHTok_ne_nil (hz0 (t0, l1) (by simp)).1) (hz0 (t0, l1) (by simp)).2.1
      (by
        intro p hp
        rcases List.mem_map.mp hp with ⟨q, hq, rfl⟩
        exact ⟨PHTok_ne_nil (hz0 q (by simp [hq])).1, (hz0 q (by simp [hq])).2.1⟩)]
    have hfinsegs : ∀ p ∈ stripLastLit ((t0, collapseWs l1) ::
        zs.map (fun p => (p.1, collapseWs p.2))), PHTok p.1 ∧ LitOk p.2 := by
      apply stripLastLit_props (fun l hl c hc => hl c (mem_rstripL hc))
      intro p hp
      rcases List.mem_cons.mp hp with rfl | hp2
      · refine ⟨(hz0 (t0, l1) (by simp)).1, ?_⟩
        intro c hc
        rcases mem_collapseWs _ _ le_rfl c hc with h | rfl
        · exact (hz0 (t0, l1) (by simp)).2.2 c h
        · decide
      · rcases List.mem_map.mp hp2 with ⟨q, hq, rfl⟩
        refine ⟨(hz0 q (by simp [hq])).1, ?_⟩
        intro c hc
        rcases mem_collapseWs _ _ le_rfl c hc with h | rfl
        · exact (hz0 q (by simp [hq])).2.2 c h
        · decide
    have hL0 : LitOk ((collapseWs (wordSub wm
        (rules.foldl (fun w pr => ciRepAll pr.1 pr.2 w) l0))).dropWhile isWsC) := by
      intro c hc
      have h2 := (List.dropWhile_sublist _).subset hc
      rcases mem_collapseWs _ _ le_rfl c h2 with h | rfl
      · exact hGsafe l0 hl0 c h
      · decide
    rw [phTokens_join _ _ hL0 hfinsegs]
    rw [stripLastLit_fst]
    have hfst : ((t0, collapseWs l1) :: zs.map (fun p => (p.1, collapseWs p.2))).map
        Prod.fst = ((t0, l1) :: zs).map Prod.fst := by
      simp [List.map_map]
    rw [hfst, ← hz]
    exact List.map_fst_zip _ _ (by rw [hlen])

/-- C1 (amended): for every supported language pair and every input text that
decomposes into an alternation of trigger-free literal segments (no `%`,
brace, dollar or underscore characters) and well-formed placeholder tokens
(whitespace- and underscore-free matches of `PLACEHOLDER_PATTERN`),
`OfflineTranslatorEngine.translate` succeeds and its output contains exactly
the same multiset of placeholder tokens as the input (in fact the same list,
in order). -/
theorem C1_placeholder_roundtrip (source target l0 : Str) (segs : List (Str × Str))
    (hsp : supports_pair source target = true)
    (hl0 : LitOk l0) (hsegs : ∀ p ∈ segs, TokOk p.1 ∧ LitOk p.2) :
    ∃ out, offline_translate (joinSegs l0 segs) source target = some out ∧
      (phTokens out : Multiset Str) =
        (phTokens (joinSegs l0 segs) : Multiset Str) := by
  by_cases hblank : ((joinSegs l0 segs).isEmpty ||
      (pyStrip (joinSegs l0 segs)).isEmpty) = true
  · refine ⟨joinSegs l0 segs, ?_, rfl⟩
    unfold offline_translate
    rw [if_pos hblank]
  · have hout : offline_translate (joinSegs l0 segs) source target =
        some (pyStrip (collapseWs (restoreGo 0 (phStash (joinSegs l0 segs)).2
          (wordSub (wordRules source target)
            ((phraseRules source target).foldl (fun w pr => ciRepAll pr.1 pr.2 w)
              (phStash (joinSegs l0 segs)).1))))) := by
      unfold offline_translate
      rw [if_neg hblank, hsp]
      simp
    rw [hout]
    refine ⟨_, rfl, ?_⟩
    refine congrArg (fun l : List Str => (l : Multiset Str)) ?_
    rw [phStash_join l0 segs hl0 (fun p hp => ⟨(hsegs p hp).1.1, (hsegs p hp).2⟩),
      phTokens_join l0 segs hl0 (fun p hp => ⟨(hsegs p hp).1.1, (hsegs p hp).2⟩)]
    dsimp only
    have hmem : (source, target) ∈ offlinePairs := by
      have h2 : offlinePairs.elem (source, target) = true := hsp
      exact List.elem_iff.mp h2
    simp only [offlinePairs, List.mem_cons, List.mem_singleton,
      List.not_mem_nil, or_false] at hmem
    rcases hmem with h | h | h | h <;>
      (rw [Prod.ext_iff] at h
       obtain ⟨h1, h2⟩ := h
       dsimp only at h1 h2
       subst h1
       subst h2)
    · exact offline_pipe_tokens (phraseRules (str "en") (str "fr"))
        (wordRules (str "en") (str "fr")) (by decide) (by decide) (by decide)
        (by decide) l0 segs hl0 hsegs
    · exact offline_pipe_tokens (phraseRules (str "fr") (str "en"))
        (wordRules (str "fr") (str "en")) (by decide) (by decide) (by decide)
        (by decide) l0 segs hl0 hsegs
    · exact offline_pipe_tokens (phraseRules (str "en") (str "es"))
        (wordRules (str "en") (str "es")) (by decide) (by decide) (by decide)
        (by decide) l0 segs hl0 hsegs
    · exact offline_pipe_tokens (phraseRules (str "es") (str "en"))
        (wordRules (str "es") (str "en")) (by decide) (by decide) (by decide)
        (by decide) l0 segs hl0 hsegs

instance LitOk.dec (l : Str) : Decidable (LitOk l) :=
  inferInstanceAs (Decidable (∀ c ∈ l, litSafeB c = true))

/-- Witness for the amended C1: the concrete text `Save %s now` for the
`("en", "fr")` pair, with the `%s` token and trigger-free literals. -/
theorem C1_roundtrip_witness :
    ∃ out, offline_translate (joinSegs (str "Save ") [(['%', 's'], str " now")])
        (str "en") (str "fr") = some out ∧
      (phTokens out : Multiset Str) =
        (phTokens (joinSegs (str "Save ") [(['%', 's'], str " now")]) : Multiset Str) :=
  C1_placeholder_roundtrip (str "en") (str "fr") (str "Save ")
    [(['%', 's'], str " now")] (by decide) (by decide)
    (by
      intro p hp
      simp only [List.mem_singleton] at hp
      subst hp
      exact ⟨⟨PHTok.pcts, by decide, by decide⟩, by decide⟩)
